import Mathlib

/-!
# Verification of the mdflare agent against its specification

Shallow embedding of the mdflare agent (Rust sources under `src/agent/src/`)
together with theorems settling the specification claims.  Pure functions of
the source are translated into Lean functions; stateful handlers become
explicit state-passing functions whose filesystem and network effects are
modelled by oracle parameters and effect logs.  Machine integers are `Int`
with explicit wrap-around where the source wraps.
-/

deriving instance DecidableEq for Except

namespace Mdflare

/-! ## Fingerprint (`sync.rs`: `SyncEngine::simple_hash`, `to_base36`) -/

/-- Normalize an integer into the signed 32-bit window `[-2^31, 2^31)`,
the value a Rust `i32` holds after wrap-around. -/
def wrap32 (n : Int) : Int := (n + 2 ^ 31) % 2 ^ 32 - 2 ^ 31

/-- Rust `hash << 5` on `i32`: shift left by 5 with the high bits discarded. -/
def wshl5 (n : Int) : Int := wrap32 (n * 32)

/-- Rust `i32::wrapping_sub`. -/
def wsub (a b : Int) : Int := wrap32 (a - b)

/-- Rust `i32::wrapping_add`. -/
def wadd (a b : Int) : Int := wrap32 (a + b)

/-- One step of the hash loop in `simple_hash`:
`hash = ((hash << 5).wrapping_sub(hash)).wrapping_add(c as i32)`. -/
def hashStep (h : Int) (c : Char) : Int := wadd (wsub (wshl5 h) h) (c.toNat : Int)

/-- The digit table of `to_base36`. -/
def digits36 : List Char := "0123456789abcdefghijklmnopqrstuvwxyz".data

/-- The digit loop of `to_base36`: least-significant digit first. -/
def base36Rev (val : Nat) : List Char :=
  if h : val = 0 then []
  else digits36.getD (val % 36) '0' :: base36Rev (val / 36)
termination_by val
decreasing_by exact Nat.div_lt_self (Nat.pos_of_ne_zero h) (by norm_num)

/-- `sync.rs`: `to_base36`.  Digits are collected least-significant first,
a `-` is pushed for negative input, and the buffer is reversed. -/
def to_base36 (n : Int) : String :=
  if n = 0 then "0"
  else
    let negative := n < 0
    let buf := base36Rev n.natAbs
    let buf' := if negative then buf ++ ['-'] else buf
    ⟨buf'.reverse⟩

/-- `sync.rs`: `SyncEngine::simple_hash`. -/
def simple_hash (s : String) : String :=
  to_base36 (s.data.foldl hashStep 0)

/-- Modelled from the spec: iterate over the Unicode scalar values of `s`,
folding `h ← h·31 + c` in a signed 32-bit window with wrap-around arithmetic,
starting at `h = 0`; emit the final value in base-36, `-`-prefixed when
negative, `"0"` for zero. -/
def fingerprintSpec (s : String) : String :=
  let h := s.data.foldl (fun h c => wrap32 (h * 31 + (c.toNat : Int))) 0
  if h = 0 then "0"
  else if h < 0 then ⟨'-' :: (base36Rev h.natAbs).reverse⟩
  else ⟨(base36Rev h.natAbs).reverse⟩

/-- A base-36 rendering: `"0"`, or a nonempty digit string with an optional
leading `-`. -/
def Base36Format (l : List Char) : Prop :=
  l = ['0'] ∨ ∃ ds, ds ≠ [] ∧ (∀ c ∈ ds, c ∈ digits36) ∧ (l = ds ∨ l = '-' :: ds)

/-! ## Rust path model (`std::path`)

A path is a flag for absoluteness plus the list of components Rust's
`Path::components` yields: `..` is `parentDir`, a plain name is `normal`.
Empty and `.` segments are dropped, as the component iterator does.
`Path::join` appends (an absolute argument replaces the base),
`Path::starts_with` and `Path::strip_prefix` compare component prefixes
lexically — neither resolves `..`.  `normalizePath` is the OS-level
resolution of `..` that happens when a file is actually opened. -/

inductive PComp where
  | parentDir : PComp
  | normal (name : String) : PComp
deriving DecidableEq

structure RustPath where
  absolute : Bool
  comps : List PComp
deriving DecidableEq

def parseComp (s : String) : Option PComp :=
  if s = "" ∨ s = "." then none
  else if s = ".." then some .parentDir
  else some (.normal s)

/-- Split a character list at `/` separators (the byte-level equivalent of
splitting a Rust path string at its separators). -/
def splitSlash : List Char → List (List Char)
  | [] => [[]]
  | c :: rest =>
    match splitSlash rest with
    | [] => [[c]]
    | l :: ls => if c = '/' then [] :: l :: ls else (c :: l) :: ls

/-- `s.starts_with p`, computed on the underlying character lists. -/
def strStartsWith (s p : String) : Bool := p.data.isPrefixOf s.data

def parsePath (s : String) : RustPath :=
  ⟨strStartsWith s "/", (splitSlash s.data).filterMap (fun seg => parseComp ⟨seg⟩)⟩

/-- `Path::join`: push the argument's components; an absolute argument
replaces the whole path. -/
def pathJoin (base arg : RustPath) : RustPath :=
  if arg.absolute then arg else ⟨base.absolute, base.comps ++ arg.comps⟩

/-- `Path::starts_with`: component-wise prefix test, purely lexical. -/
def pathStartsWith (p base : RustPath) : Bool :=
  p.absolute == base.absolute && base.comps.isPrefixOf p.comps

/-- `Path::strip_prefix`: drop a component prefix, `none` when `p` does not
start with `base`. -/
def stripPrefix (p base : RustPath) : Option RustPath :=
  if pathStartsWith p base then some ⟨false, p.comps.drop base.comps.length⟩ else none

/-- Resolve `..` components the way the operating system does when the path
is actually used (`..` at the root stays at the root). -/
def normalizeComps (cs : List PComp) : List PComp :=
  cs.foldl
    (fun acc c =>
      match c with
      | .parentDir => acc.dropLast
      | .normal n => acc ++ [.normal n]) []

def normalizePath (p : RustPath) : RustPath := ⟨p.absolute, normalizeComps p.comps⟩

/-! ## Percent decoding -/

def hexVal (c : Char) : Option Nat :=
  if '0' ≤ c ∧ c ≤ '9' then some (c.toNat - 48)
  else if 'a' ≤ c ∧ c ≤ 'f' then some (c.toNat - 87)
  else if 'A' ≤ c ∧ c ≤ 'F' then some (c.toNat - 55)
  else none

/-- Modelled from the `urlencoding` crate (a dependency, not code of this
repository): percent-decoding restricted to single-byte escapes, which covers
every input this development evaluates.  A malformed escape passes the `%`
through verbatim, as the crate does; multi-byte UTF-8 recombination (and the
`Err` on invalid UTF-8 that `unwrap_or` would catch) is not represented. -/
def percentDecodeChars : List Char → List Char
  | [] => []
  | '%' :: h1 :: h2 :: rest =>
    match hexVal h1, hexVal h2 with
    | some v1, some v2 => Char.ofNat (16 * v1 + v2) :: percentDecodeChars rest
    | _, _ => '%' :: percentDecodeChars (h1 :: h2 :: rest)
  | c :: rest => c :: percentDecodeChars rest

def percentDecode (s : String) : String := ⟨percentDecodeChars s.data⟩

/-! ## Private-vault HTTP file service (`private_vault.rs`)

The filesystem is a map from OS-resolved (normalized) absolute paths to file
contents; directories exist implicitly.  Handlers return an HTTP status via
`Except Nat` and, for mutating handlers, the filesystem after the call.
`FileContent` metadata (size, mtime) is reduced to the content itself. -/

/-- `types.rs`: `FileItem` — a node of the scanned tree.  Folders carry
`children = some …`, files carry `none`.  The `size` field, metadata never
read by the handlers, is not represented. -/
inductive FileItem where
  | mk (name : String) (path : String) (fileType : String) (modified : Option String)
      (children : Option (List FileItem)) : FileItem

def FileItem.name : FileItem → String
  | .mk n _ _ _ _ => n

def FileItem.path : FileItem → String
  | .mk _ p _ _ _ => p

def FileItem.fileType : FileItem → String
  | .mk _ _ t _ _ => t

def FileItem.modified : FileItem → Option String
  | .mk _ _ _ m _ => m

def FileItem.children : FileItem → Option (List FileItem)
  | .mk _ _ _ _ c => c

def Vfs : Type := RustPath → Option String

def vfsEmpty : Vfs := fun _ => none

def vfsWrite (fs : Vfs) (p : RustPath) (c : String) : Vfs :=
  fun q => if q = p then some c else fs q

/-- `private_vault.rs`: `ServerState` (the `local_path` root and the bearer
token). -/
structure ServerState where
  local_path : RustPath
  token : String

/-- `private_vault.rs`: `check_auth`.  `&h[7..]` is `h.drop 7`: the prefix
`"Bearer "` is 7 one-byte characters. -/
def check_auth (stateToken : String) : Option String → Except Nat Unit
  | some h =>
    if strStartsWith h "Bearer " then
      if h.drop 7 = stateToken then .ok () else .error 401
    else .error 401
  | none => .error 401

/-- The header shapes `check_auth` accepts. -/
def authOk (stateToken : String) : Option String → Bool
  | some h => strStartsWith h "Bearer " && h.drop 7 == stateToken
  | none => false

/-- `private_vault.rs`: `api_list_files`.  The directory scan of the root is
passed in as an oracle (`scanResult`); the handler's own logic is the auth
gate followed by returning the scan. -/
def api_list_files (st : ServerState) (scanResult : List FileItem) (auth : Option String) :
    Except Nat (List FileItem) :=
  match check_auth st.token auth with
  | .error e => .error e
  | .ok () => .ok scanResult

/-- `private_vault.rs`: `api_get_file`. -/
def api_get_file (st : ServerState) (fs : Vfs) (auth : Option String) (path : String) :
    Except Nat String :=
  match check_auth st.token auth with
  | .error e => .error e
  | .ok () =>
    let decoded := percentDecode path
    let file_path := pathJoin st.local_path (parsePath decoded)
    if pathStartsWith file_path st.local_path then
      match fs (normalizePath file_path) with
      | some content => .ok content
      | none => .error 404
    else .error 403

/-- `private_vault.rs`: `api_put_file`.  The write lands at the OS-resolved
path `normalizePath file_path`. -/
def api_put_file (st : ServerState) (fs : Vfs) (auth : Option String) (path : String)
    (content : String) : Except Nat Unit × Vfs :=
  match check_auth st.token auth with
  | .error e => (.error e, fs)
  | .ok () =>
    let decoded := percentDecode path
    let file_path := pathJoin st.local_path (parsePath decoded)
    if pathStartsWith file_path st.local_path then
      (.ok (), vfsWrite fs (normalizePath file_path) content)
    else (.error 403, fs)

/-- `private_vault.rs`: `api_delete_file` (directory deletion is not
represented: the map holds only files). -/
def api_delete_file (st : ServerState) (fs : Vfs) (auth : Option String) (path : String) :
    Except Nat Unit × Vfs :=
  match check_auth st.token auth with
  | .error e => (.error e, fs)
  | .ok () =>
    let decoded := percentDecode path
    let file_path := pathJoin st.local_path (parsePath decoded)
    if pathStartsWith file_path st.local_path then
      match fs (normalizePath file_path) with
      | some _ => (.ok (), fun q => if q = normalizePath file_path then none else fs q)
      | none => (.error 404, fs)
    else (.error 403, fs)

/-- `private_vault.rs`: `api_rename`. -/
def api_rename (st : ServerState) (fs : Vfs) (auth : Option String) (oldPath newPath : String) :
    Except Nat Unit × Vfs :=
  match check_auth st.token auth with
  | .error e => (.error e, fs)
  | .ok () =>
    let oldDecoded := percentDecode oldPath
    let newDecoded := percentDecode newPath
    let oldFile := pathJoin st.local_path (parsePath oldDecoded)
    let newFile := pathJoin st.local_path (parsePath newDecoded)
    if pathStartsWith oldFile st.local_path && pathStartsWith newFile st.local_path then
      match fs (normalizePath oldFile) with
      | some content =>
        (.ok (), fun q =>
          if q = normalizePath newFile then some content
          else if q = normalizePath oldFile then none
          else fs q)
      | none => (.error 404, fs)
    else (.error 403, fs)

/-! ## Diff codec (`sync.rs`: `apply_line_diff`, `generate_line_diff`)

Content is the character list underlying a Rust `&str`.  A diff is a typed
list of the three ops the JSON carries; unknown ops and non-string `ins`
entries, on which the source returns `None`, are unrepresentable in the
typed form (the generator never produces them). -/

inductive DiffOp where
  | eq (n : Nat)
  | del (n : Nat)
  | ins (lines : List (List Char))
deriving DecidableEq

/-- Split a character list at `\n` separators — Rust `str::split('\n')`:
one more segment than there are newlines. -/
def splitNL : List Char → List (List Char)
  | [] => [[]]
  | c :: rest =>
    match splitNL rest with
    | [] => [[c]]
    | l :: ls => if c = '\n' then [] :: l :: ls else (c :: l) :: ls

/-- `Vec::join("\n")`. -/
def joinNL : List (List Char) → List Char
  | [] => []
  | [l] => l
  | l :: ls => l ++ '\n' :: joinNL ls

/-- The op loop of `apply_line_diff`, as a recursion over the op list: the
result is the final cursor position and the lines pushed so far (the lines a
later op pushes sit to the right of the recursive call's output). -/
def applyOps (lines : List (List Char)) (pos : Nat) : List DiffOp → Option (Nat × List (List Char))
  | [] => some (pos, [])
  | .eq n :: rest =>
    if pos + n ≤ lines.length then
      match applyOps lines (pos + n) rest with
      | some r => some (r.1, (lines.drop pos).take n ++ r.2)
      | none => none
    else none
  | .del n :: rest =>
    if pos + n ≤ lines.length then applyOps lines (pos + n) rest else none
  | .ins xs :: rest =>
    match applyOps lines pos rest with
    | some r => some (r.1, xs ++ r.2)
    | none => none

/-- `sync.rs`: `apply_line_diff` — split the old content at newlines, walk
the ops, append the unclaimed suffix of the old lines, and join. -/
def apply_line_diff (old : List Char) (diff : List DiffOp) : Option (List Char) :=
  match applyOps (splitNL old) 0 diff with
  | some r => some (joinNL (r.2 ++ (splitNL old).drop r.1))
  | none => none

/-- A change as yielded by the `similar` crate's `iter_all_changes`: one line
token, carrying its trailing newline when the source text has one there. -/
inductive Change where
  | equal (tok : List Char)
  | delete (tok : List Char)
  | insert (tok : List Char)
deriving DecidableEq

/-- Modelled from the `similar` crate (a dependency, not code of this
repository): its line tokenizer splits after every `\n`, keeps the newline
inside the token, keeps a final newline-less fragment when nonempty, and
yields no token for the empty text. -/
def tokenizeLines : List Char → List (List Char)
  | [] => []
  | c :: rest =>
    if c = '\n' then ['\n'] :: tokenizeLines rest
    else
      match tokenizeLines rest with
      | [] => [[c]]
      | l :: ls => (c :: l) :: ls

/-- The old-side tokens of a change list (equal and delete changes). -/
def oldSideOf : List Change → List (List Char)
  | [] => []
  | .equal t :: cs => t :: oldSideOf cs
  | .delete t :: cs => t :: oldSideOf cs
  | .insert _ :: cs => oldSideOf cs

/-- The new-side tokens of a change list (equal and insert changes). -/
def newSideOf : List Change → List (List Char)
  | [] => []
  | .equal t :: cs => t :: newSideOf cs
  | .insert t :: cs => t :: newSideOf cs
  | .delete _ :: cs => newSideOf cs

/-- A change list is a valid line edit script from `old` to `new` when its
old side lists exactly the line tokens of `old` in order and its new side
exactly those of `new` — the contract any correct diff, the `similar`
crate's Myers diff included, satisfies. -/
def ValidScript (old new : List Char) (cs : List Change) : Prop :=
  oldSideOf cs = tokenizeLines old ∧ newSideOf cs = tokenizeLines new

/-- `generate_line_diff`'s run-length state: the ops emitted so far and the
three pending runs (`eq_count`, `del_count`, `ins_lines`). -/
structure GenState where
  ops : List DiffOp
  eqCount : Nat
  delCount : Nat
  insLines : List (List Char)

/-- `generate_line_diff`'s `flush_del` closure. -/
def flushDel (s : GenState) : GenState :=
  if s.delCount > 0 then { s with ops := s.ops ++ [.del s.delCount], delCount := 0 } else s

/-- `generate_line_diff`'s `flush_ins` closure. -/
def flushIns (s : GenState) : GenState :=
  if s.insLines ≠ [] then { s with ops := s.ops ++ [.ins s.insLines], insLines := [] } else s

/-- `generate_line_diff`'s `flush_eq` closure. -/
def flushEq (s : GenState) : GenState :=
  if s.eqCount > 0 then { s with ops := s.ops ++ [.eq s.eqCount], eqCount := 0 } else s

/-- `generate_line_diff`: strip the trailing newline `similar` keeps on an
inserted line token. -/
def stripTrailingNL (l : List Char) : List Char :=
  if l.getLast? = some '\n' then l.dropLast else l

/-- One iteration of `generate_line_diff`'s `for change in
text_diff.iter_all_changes()` loop. -/
def genStep (s : GenState) (c : Change) : GenState :=
  match c with
  | .equal _ =>
    let s' := flushIns (flushDel s)
    { s' with eqCount := s'.eqCount + 1 }
  | .delete _ =>
    let s' := flushIns (flushEq s)
    { s' with delCount := s'.delCount + 1 }
  | .insert tok =>
    let s' := flushEq s
    { s' with insLines := s'.insLines ++ [stripTrailingNL tok] }

/-- `generate_line_diff`'s loop over a change list followed by the three
final flushes. -/
def generateOps (changes : List Change) : List DiffOp :=
  (flushIns (flushDel (flushEq (changes.foldl genStep ⟨[], 0, 0, []⟩)))).ops

/-- Modelled from the `similar` crate: an executable edit script standing in
for the crate's Myers diff.  Every theorem about the generator is proved for
an arbitrary `ValidScript` — the only property of the crate's diff the source
relies on — so nothing depends on which valid script the crate actually
emits; on the inputs evaluated below the valid script is unique anyway. -/
def diffChanges : List (List Char) → List (List Char) → List Change
  | [], ns => ns.map .insert
  | o :: os, [] => .delete o :: diffChanges os []
  | o :: os, n :: ns =>
    if o = n then .equal o :: diffChanges os ns
    else .delete o :: diffChanges os (n :: ns)

/-- `sync.rs`: `generate_line_diff` — tokenize both contents into lines and
run the collapsing loop over the resulting change stream. -/
def generate_line_diff (old new : List Char) : List DiffOp :=
  generateOps (diffChanges (tokenizeLines old) (tokenizeLines new))

/-- Newline-terminated content (the empty content counts): exactly the
contents whose `split('\n')` decomposition ends in an empty segment. -/
def nlTerminated (l : List Char) : Bool := l == [] || l.getLast? == some '\n'

/-- The suffix of `split('\n')` that lies beyond the line tokens: a single
empty segment for newline-terminated content, nothing otherwise. -/
def tailPart (l : List Char) : List (List Char) :=
  if nlTerminated l then [[]] else []

/-- The canonical one-op-per-change script; `generateOps` is its run-length
compression. -/
def canonOps : Change → List DiffOp
  | .equal _ => [.eq 1]
  | .delete _ => [.del 1]
  | .insert tok => [.ins [stripTrailingNL tok]]

def canon (cs : List Change) : List DiffOp :=
  (cs.map canonOps).flatten

/-- Two op lists that apply identically against every line buffer and
cursor. -/
def OpsEquiv (ops₁ ops₂ : List DiffOp) : Prop :=
  ∀ lines pos, applyOps lines pos ops₁ = applyOps lines pos ops₂

/-- The reachable shape of the generator state: a pending equal run excludes
pending delete and insert runs (they are flushed before `eq_count` grows). -/
def GenInv (s : GenState) : Prop :=
  0 < s.eqCount → s.delCount = 0 ∧ s.insLines = []

/-- The ops the three final flushes would emit from state `s`. -/
def pendingOps (s : GenState) : List DiffOp :=
  (if 0 < s.eqCount then [.eq s.eqCount] else []) ++
    (if 0 < s.delCount then [.del s.delCount] else []) ++
    (if s.insLines ≠ [] then [.ins s.insLines] else [])

/-! ## Sync engine (`sync.rs`: `SyncEngine`)

The three cache maps and the relative-path-keyed local file tree are
string-keyed partial maps.  Remote HTTP calls are logged in order; their
results come from oracle functions (`Err` is `none`/`false`).  Filesystem
writes, removes and renames are modelled as always succeeding; a read
failure coincides with absence. -/

def SMap : Type := String → Option String

def smapEmpty : SMap := fun _ => none

def smapInsert (m : SMap) (k v : String) : SMap :=
  fun q => if q = k then some v else m q

def smapRemove (m : SMap) (k : String) : SMap :=
  fun q => if q = k then none else m q

/-- `if let Some(v) = m.remove(old) { m.insert(new, v) }` — the cache
transfer of the rename handler. -/
def smapMove (m : SMap) (old new : String) : SMap :=
  match m old with
  | some v => smapInsert (smapRemove m old) new v
  | none => m

/-- `sync.rs`: the cache fields of `SyncEngine` (`local_hashes`,
`local_content_cache`, `remote_modified`); the API client and root path are
configuration, not state. -/
structure SyncState where
  local_hashes : SMap
  local_content_cache : SMap
  remote_modified : SMap

/-- `SyncEngine::new`: all three maps start empty. -/
def syncInit : SyncState := ⟨smapEmpty, smapEmpty, smapEmpty⟩

/-- A remote HTTP call issued through `ApiClient`. -/
inductive RemoteCall where
  | list : RemoteCall
  | get (path : String) : RemoteCall
  | put (path : String) (content : String) (oldHash : Option String)
      (diff : Option (List DiffOp)) : RemoteCall
  | delete (path : String) : RemoteCall
  | heartbeat : RemoteCall
deriving DecidableEq

/-- The outcome of one engine handler: the new caches, the local file tree
(keyed by relative path), and the remote calls issued, in order. -/
structure EngineResult where
  state : SyncState
  fs : SMap
  calls : List RemoteCall

/-- `sync.rs`: `RtdbFileEntry` (wire fields `oldHash`, `oldPath`; the diff
is already decoded into typed ops). -/
structure RtdbFileEntry where
  path : String
  action : String
  hash : Option String
  old_hash : Option String
  diff : Option (List DiffOp)
  old_path : Option String
  modified : Option Nat
  size : Option Nat

/-- `sync.rs`: `SyncEngine::fetch_from_r2` — one GET; on success write the
file and refresh both caches, on error only log. -/
def fetch_from_r2 (getO : String → Option String) (st : SyncState) (fs : SMap)
    (path : String) : EngineResult :=
  match getO path with
  | some content =>
    ⟨⟨smapInsert st.local_hashes path (simple_hash content),
      smapInsert st.local_content_cache path content,
      st.remote_modified⟩,
     smapInsert fs path content,
     [.get path]⟩
  | none => ⟨st, fs, [.get path]⟩

/-- `sync.rs`: `SyncEngine::handle_rtdb_event`. -/
def handle_rtdb_event (getO : String → Option String) (st : SyncState) (fs : SMap)
    (entry : RtdbFileEntry) : EngineResult :=
  match entry.action with
  | "save" =>
    match entry.old_hash, entry.diff, st.local_hashes entry.path with
    | some old_hash, some diff, some lh =>
      if lh = old_hash then
        match fs entry.path with
        | some old_content =>
          match apply_line_diff old_content.data diff with
          | some new_content =>
            ⟨⟨smapInsert st.local_hashes entry.path (simple_hash ⟨new_content⟩),
              smapInsert st.local_content_cache entry.path ⟨new_content⟩,
              st.remote_modified⟩,
             smapInsert fs entry.path ⟨new_content⟩,
             []⟩
          | none => fetch_from_r2 getO st fs entry.path
        | none => fetch_from_r2 getO st fs entry.path
      else fetch_from_r2 getO st fs entry.path
    | _, _, _ => fetch_from_r2 getO st fs entry.path
  | "create" => fetch_from_r2 getO st fs entry.path
  | "delete" =>
    match fs entry.path with
    | some _ =>
      ⟨⟨smapRemove st.local_hashes entry.path,
        smapRemove st.local_content_cache entry.path,
        st.remote_modified⟩,
       smapRemove fs entry.path,
       []⟩
    | none => ⟨st, fs, []⟩
  | "rename" =>
    match entry.old_path with
    | some old_path =>
      match fs old_path with
      | some c =>
        ⟨⟨smapMove st.local_hashes old_path entry.path,
          smapMove st.local_content_cache old_path entry.path,
          st.remote_modified⟩,
         smapInsert (smapRemove fs old_path) entry.path c,
         []⟩
      | none => fetch_from_r2 getO st fs entry.path
    | none => ⟨st, fs, []⟩
  | _ => ⟨st, fs, []⟩

/-- The textual name of a path component, for rebuilding the relative
string as `to_string_lossy` does. -/
def compName : PComp → String
  | .parentDir => ".."
  | .normal n => n

/-- The forward-slash relative string of a stripped path
(`rel.to_string_lossy().replace('\\', "/")`). -/
def relString (p : RustPath) : String :=
  String.intercalate "/" (p.comps.map compName)

def strEndsWith (s p : String) : Bool := p.data.isSuffixOf s.data

/-- `sync.rs`: `SyncEngine::handle_local_change`.  `sizeOk` abstracts the
10 240-byte cap on the serialized diff (`diff_str.len() <= 10240`), whose
exact JSON byte count no claim depends on.  A path outside the root makes
`strip_prefix` fail and the handler falls through.  The caches are updated
before the PUT is issued, whatever its outcome; the remote DELETE purges the
caches only when it succeeds (`deleteO`). -/
def handle_local_change (deleteO : String → Bool) (sizeOk : List DiffOp → Bool)
    (root : RustPath) (st : SyncState) (fs : SMap) (full_path : RustPath) : EngineResult :=
  match stripPrefix full_path root with
  | some rel =>
    let rel_str := relString rel
    match fs rel_str with
    | some content =>
      let new_hash := simple_hash content
      if st.local_hashes rel_str ≠ some new_hash then
        let old_hash := st.local_hashes rel_str
        let diff :=
          if old_hash.isSome then
            let diff_val := generate_line_diff
              ((st.local_content_cache rel_str).getD "").data content.data
            if sizeOk diff_val then some diff_val else none
          else none
        ⟨⟨smapInsert st.local_hashes rel_str new_hash,
          smapInsert st.local_content_cache rel_str content,
          st.remote_modified⟩,
         fs,
         [.put rel_str content old_hash diff]⟩
      else ⟨st, fs, []⟩
    | none =>
      if deleteO rel_str then
        ⟨⟨smapRemove st.local_hashes rel_str,
          smapRemove st.local_content_cache rel_str,
          st.remote_modified⟩,
         fs,
         [.delete rel_str]⟩
      else ⟨st, fs, [.delete rel_str]⟩
  | none => ⟨st, fs, []⟩

/-- The per-path body of the folder-delete loop. -/
def folderDeleteLoop (deleteO : String → Bool) :
    List String → SyncState → SyncState × List RemoteCall
  | [], st => (st, [])
  | p :: rest, st =>
    let st' :=
      if deleteO p then
        ⟨smapRemove st.local_hashes p, smapRemove st.local_content_cache p,
          st.remote_modified⟩
      else st
    let r := folderDeleteLoop deleteO rest st'
    (r.1, .delete p :: r.2)

/-- `sync.rs`: `SyncEngine::handle_local_folder_delete`.  `keys` is the
oracle enumerating `local_hashes.keys()` (the map model is a function, so
the key iteration order comes from outside); the handler keeps the source's
prefix filter over it. -/
def handle_local_folder_delete (deleteO : String → Bool) (keys : List String)
    (root : RustPath) (st : SyncState) (fs : SMap) (folder_path : RustPath) : EngineResult :=
  match stripPrefix folder_path root with
  | some rel =>
    let pfx := relString rel
    let pfxSlash := if strEndsWith pfx "/" then pfx else pfx ++ "/"
    let to_delete := keys.filter (fun k => strStartsWith k pfxSlash)
    let r := folderDeleteLoop deleteO to_delete st
    ⟨r.1, fs, r.2⟩
  | none => ⟨st, fs, []⟩

/-- `sync.rs`: `SyncEngine::flatten_files` — folders contribute their
flattened children, files contribute `(path, modified)`. -/
def flatten_files : List FileItem → List (String × Option String)
  | [] => []
  | .mk _ path ftype modified children :: rest =>
    (if ftype = "folder" then
      (match children with
       | some cs => flatten_files cs
       | none => [])
     else if ftype = "file" then [(path, modified)]
     else []) ++ flatten_files rest

/-- The download decision of `full_sync`: the local file is absent, or the
remote `modified` is present and differs from the stored
`remote_modified` entry. -/
def shouldDownload (st : SyncState) (fs : SMap) (item : String × Option String) : Bool :=
  if (fs item.1).isSome = false then true
  else
    match item.2 with
    | some mod_time => decide (st.remote_modified item.1 ≠ some mod_time)
    | none => false

/-- The server→local loop of `full_sync`: issue a GET for each item that
`shouldDownload`, and on success write the file, refresh the caches and the
`remote_modified` stamp, and count the download. -/
def downloadLoop (getO : String → Option String) :
    List (String × Option String) → SyncState → SMap →
      SyncState × SMap × List RemoteCall × Nat
  | [], st, fs => (st, fs, [], 0)
  | item :: rest, st, fs =>
    if shouldDownload st fs item then
      match getO item.1 with
      | some content =>
        let st' : SyncState :=
          ⟨smapInsert st.local_hashes item.1 (simple_hash content),
           smapInsert st.local_content_cache item.1 content,
           match item.2 with
           | some m => smapInsert st.remote_modified item.1 m
           | none => st.remote_modified⟩
        let r := downloadLoop getO rest st' (smapInsert fs item.1 content)
        (r.1, r.2.1, .get item.1 :: r.2.2.1, r.2.2.2 + 1)
      | none =>
        let r := downloadLoop getO rest st fs
        (r.1, r.2.1, .get item.1 :: r.2.2.1, r.2.2.2)
    else
      let r := downloadLoop getO rest st fs
      (r.1, r.2.1, r.2.2.1, r.2.2.2)

/-- The local→server loop of `full_sync`: PUT every local path missing from
the remote listing whose content reads; refresh the caches and count the
upload only when the PUT succeeds. -/
def uploadLoop (putO : String → Bool) (remote_paths : List String) (fs : SMap) :
    List String → SyncState → SyncState × List RemoteCall × Nat
  | [], st => (st, [], 0)
  | path :: rest, st =>
    if path ∈ remote_paths then uploadLoop putO remote_paths fs rest st
    else
      match fs path with
      | some content =>
        if putO path then
          let st' : SyncState :=
            ⟨smapInsert st.local_hashes path (simple_hash content),
             smapInsert st.local_content_cache path content,
             st.remote_modified⟩
          let r := uploadLoop putO remote_paths fs rest st'
          (r.1, .put path content none none :: r.2.1, r.2.2 + 1)
        else
          let r := uploadLoop putO remote_paths fs rest st
          (r.1, .put path content none none :: r.2.1, r.2.2)
      | none => uploadLoop putO remote_paths fs rest st

/-- `sync.rs`: `SyncEngine::full_sync` on a successful listing.  `files` is
the listing the LIST call returned, `localPaths` the oracle for the local
scan.  Returns the final caches, file tree, the ordered calls, and the
`(downloaded, uploaded)` pair. -/
def full_sync (getO : String → Option String) (putO : String → Bool)
    (files : List FileItem) (localPaths : List String) (st : SyncState) (fs : SMap) :
    SyncState × SMap × List RemoteCall × (Nat × Nat) :=
  let remote_items := flatten_files files
  let remote_paths := remote_items.map Prod.fst
  let d := downloadLoop getO remote_items st fs
  let u := uploadLoop putO remote_paths d.2.1 localPaths d.1
  (u.1, d.2.1, .list :: d.2.2.1 ++ u.2.1 ++ [.heartbeat], (d.2.2.2, u.2.2))

/-- Engine states reachable by any sequence of handler invocations from the
fresh engine, with arbitrary oracles, file trees and inputs at every step. -/
inductive ReachableSync : SyncState → Prop where
  | init : ReachableSync syncInit
  | fullSync {st} (getO putO files localPaths fs) :
      ReachableSync st → ReachableSync (full_sync getO putO files localPaths st fs).1
  | localChange {st} (deleteO sizeOk root fs full_path) :
      ReachableSync st →
      ReachableSync (handle_local_change deleteO sizeOk root st fs full_path).state
  | folderDelete {st} (deleteO keys root fs folder_path) :
      ReachableSync st →
      ReachableSync (handle_local_folder_delete deleteO keys root st fs folder_path).state
  | rtdbEvent {st} (getO fs entry) :
      ReachableSync st → ReachableSync (handle_rtdb_event getO st fs entry).state

/-- The cache invariant: the fingerprint cache is the content cache mapped
through `simple_hash`, pointwise. -/
def CacheInv (st : SyncState) : Prop :=
  ∀ k, st.local_hashes k = (st.local_content_cache k).map simple_hash

/-! ## Push subscriber (`sync.rs`: `start_rtdb_subscription`)

The per-connection read loop is a machine over the received lines; a
dispatch is the `(event_type, data)` pair handed to `handle_sse_data`. -/

/-- The SSE parser state of one connection: the pending `event:` type, the
pending `data:` payload, and the first-put flag. -/
structure ConnState where
  eventType : String
  dataBuf : String
  firstPut : Bool

/-- `start_rtdb_subscription`: the body of the `for line in reader.lines()`
loop — returns the successor state and the dispatches this line causes. -/
def sseLineStep (s : ConnState) (line : String) : ConnState × List (String × String) :=
  if strStartsWith line "event:" then
    ({ s with eventType := (line.drop 6).trim }, [])
  else if strStartsWith line "data:" then
    ({ s with dataBuf := (line.drop 5).trim }, [])
  else if line = "" ∧ s.eventType ≠ "" then
    if s.eventType = "put" ∨ s.eventType = "patch" then
      if s.firstPut ∧ s.eventType = "put" then
        (⟨"", "", false⟩, [])
      else (⟨"", "", s.firstPut⟩, [(s.eventType, s.dataBuf)])
    else (⟨"", "", s.firstPut⟩, [])
  else (s, [])

/-- Run the connection loop from a state over the received lines. -/
def sseRun (s : ConnState) : List String → List (String × String)
  | [] => []
  | line :: rest =>
    let r := sseLineStep s line
    r.2 ++ sseRun r.1 rest

/-- One (re)connection: `first_put` is initialized to `true` inside the
reconnect loop, so every connection starts with a fresh filter. -/
def connectionDispatches (lines : List String) : List (String × String) :=
  sseRun ⟨"", "", true⟩ lines

/-- The subscription over successive (re)connections: each connection's
lines are processed by a fresh loop state. -/
def subscriptionDispatches (conns : List (List String)) : List (String × String) :=
  (conns.map connectionDispatches).flatten

/-- The same parser with the first-put filter removed: every completed
`put`/`patch` event is dispatched. -/
def sseLineStepNF (s : String × String) (line : String) :
    (String × String) × List (String × String) :=
  if strStartsWith line "event:" then
    ((( line.drop 6).trim, s.2), [])
  else if strStartsWith line "data:" then
    ((s.1, (line.drop 5).trim), [])
  else if line = "" ∧ s.1 ≠ "" then
    if s.1 = "put" ∨ s.1 = "patch" then (("", ""), [(s.1, s.2)])
    else (("", ""), [])
  else (s, [])

def sseRunNF (s : String × String) : List String → List (String × String)
  | [] => []
  | line :: rest =>
    let r := sseLineStepNF s line
    r.2 ++ sseRunNF r.1 rest

/-- Drop the first event of type `put` from a dispatch list. -/
def removeFirstPut : List (String × String) → List (String × String)
  | [] => []
  | e :: rest => if e.1 = "put" then rest else e :: removeFirstPut rest

/-! ## Local scanner (`local_fs.rs`: `scan_local_md_files`) -/

/-- The filesystem tree under the scan root: named files and directories,
directory entries in `read_dir` order. -/
inductive FsNode where
  | file (name : String) : FsNode
  | dir (name : String) (entries : List FsNode) : FsNode

def FsNode.name : FsNode → String
  | .file n => n
  | .dir n _ => n

/-- Lexicographic character-list order; Rust's byte order on UTF-8 strings
agrees with code-point order. -/
def charsLe : List Char → List Char → Bool
  | [], _ => true
  | _ :: _, [] => false
  | a :: as, b :: bs => if a = b then charsLe as bs else decide (a < b)

/-- `entries.sort_by(|a, b| a.file_name().cmp(&b.file_name()))`, realized
as an insertion sort. -/
def insertNode (x : FsNode) : List FsNode → List FsNode
  | [] => [x]
  | y :: ys =>
    if charsLe x.name.data y.name.data then x :: y :: ys else y :: insertNode x ys

def sortByName : List FsNode → List FsNode
  | [] => []
  | x :: xs => insertNode x (sortByName xs)

/-- Scan of a file name for the extension start: the segment after the last
`.` seen from here on. -/
def extFrom : List Char → Option (List Char)
  | [] => none
  | '.' :: rest => some ((extFrom rest).getD rest)
  | _ :: rest => extFrom rest

/-- Rust `Path::extension` on a file name: the part after the last `.`; none
when there is no `.` or when the only `.` leads the name (the leading
character never starts an extension). -/
def rustExtension : List Char → Option (List Char)
  | [] => none
  | _ :: rest => extFrom rest

/-- `path.extension().map_or(false, |e| e == "md")`. -/
def isMdName (name : String) : Bool := rustExtension name.data == some ['m', 'd']

/-- `local_fs.rs`: `has_md_files` — does the directory transitively contain
a Markdown file?  Hidden entries are not skipped here, unlike in the scan
loop. -/
def hasMdFiles : List FsNode → Bool
  | [] => false
  | .file name :: rest => isMdName name || hasMdFiles rest
  | .dir _ sub :: rest => hasMdFiles sub || hasMdFiles rest

/-- The comparator of the per-directory `items.sort_by`: folders before
files, otherwise by name. -/
def itemLe (a b : FileItem) : Bool :=
  if a.fileType = "folder" ∧ b.fileType = "file" then true
  else if a.fileType = "file" ∧ b.fileType = "folder" then false
  else charsLe a.name.data b.name.data

def insertItem (x : FileItem) : List FileItem → List FileItem
  | [] => [x]
  | y :: ys => if itemLe x y then x :: y :: ys else y :: insertItem x ys

def sortItems : List FileItem → List FileItem
  | [] => []
  | x :: xs => insertItem x (sortItems xs)

/-- The forward-slash relative path of an entry under prefix `pfx`
(`path.strip_prefix(base)…replace('\\', "/")`). -/
def childPath (pfx name : String) : String :=
  if pfx = "" then name else pfx ++ "/" ++ name

lemma mem_insertNode {y x : FsNode} :
    ∀ {l : List FsNode}, y ∈ insertNode x l → y = x ∨ y ∈ l := by
  intro l
  induction l with
  | nil => intro h; simpa [insertNode] using h
  | cons z zs ih =>
    intro h
    unfold insertNode at h
    split at h
    · rcases List.mem_cons.mp h with h | h
      · exact Or.inl h
      · exact Or.inr h
    · rcases List.mem_cons.mp h with h | h
      · exact Or.inr (h ▸ List.mem_cons_self z zs)
      · rcases ih h with h | h
        · exact Or.inl h
        · exact Or.inr (List.mem_cons_of_mem z h)

lemma mem_sortByName {y : FsNode} :
    ∀ {l : List FsNode}, y ∈ sortByName l → y ∈ l := by
  intro l
  induction l with
  | nil => intro h; simpa [sortByName] using h
  | cons x xs ih =>
    intro h
    rcases mem_insertNode h with h | h
    · exact h ▸ List.mem_cons_self x xs
    · exact List.mem_cons_of_mem x (ih h)

/-- `local_fs.rs`: the `scan_dir` worker of `scan_local_md_files` — sort the
directory entries by name, skip dot entries, keep `.md` files and the
directories whose scan is nonempty or which `has_md_files`, and sort the
items folders-first.  `mtime` is the oracle for `fs::metadata … modified`. -/
def scanDir (mtime : String → Option String) (pfx : String) (entries : List FsNode) :
    List FileItem :=
  sortItems ((sortByName entries).attach.filterMap
    (fun e =>
      match e with
      | ⟨.file name, _⟩ =>
        if strStartsWith name "." then none
        else if isMdName name then
          some (.mk name (childPath pfx name) "file" (mtime (childPath pfx name)) none)
        else none
      | ⟨.dir name sub, _⟩ =>
        if strStartsWith name "." then none
        else
          let children := scanDir mtime (childPath pfx name) sub
          if !children.isEmpty || hasMdFiles sub then
            some (.mk name (childPath pfx name) "folder" none (some children))
          else none))
termination_by sizeOf entries
decreasing_by
  have hmem : FsNode.dir name sub ∈ sortByName entries := by assumption
  have h2 := List.sizeOf_lt_of_mem (mem_sortByName hmem)
  simp only [FsNode.dir.sizeOf_spec] at h2
  omega

/-- The per-entry body of the scan loop, named so the filter over the
attached entry list can be reasoned about: dot entries are skipped, `.md`
files become file items, directories become folder items when their scan is
nonempty or `has_md_files` holds. -/
def scanEntry (mtime : String → Option String) (pfx : String) : FsNode → Option FileItem
  | .file name =>
    if strStartsWith name "." then none
    else if isMdName name then
      some (.mk name (childPath pfx name) "file" (mtime (childPath pfx name)) none)
    else none
  | .dir name sub =>
    if strStartsWith name "." then none
    else
      let children := scanDir mtime (childPath pfx name) sub
      if !children.isEmpty || hasMdFiles sub then
        some (.mk name (childPath pfx name) "folder" none (some children))
      else none

/-- An item kind the scanner can produce. -/
def KindOk (it : FileItem) : Prop :=
  it.fileType = "folder" ∨ it.fileType = "file"

lemma check_auth_eq (t : String) (h : Option String) :
    check_auth t h = if authOk t h then .ok () else .error 401 := by
  cases h with
  | none => rfl
  | some s =>
    simp only [check_auth, authOk]
    by_cases h1 : strStartsWith s "Bearer "
    · by_cases h2 : s.drop 7 = t
      · simp [h1, h2]
      · simp [h1, h2]
    · simp [h1]

/-- C1: the path-confinement check of the vault service does not block `..`
traversal.  `Path::join` does not collapse `..` and `Path::starts_with`
compares components lexically, so for the request
`PUT /api/file/..%2Fescape.md` (decoded `../escape.md`) against root
`/vault` the check passes, the handler answers 200 instead of the 403 the
spec requires, and the write lands at the OS-resolved path `/escape.md`,
which lies outside the root. -/
theorem vault_put_traversal_escapes_root :
    (api_put_file ⟨⟨true, [PComp.normal "vault"]⟩, "tok"⟩ vfsEmpty (some "Bearer tok")
        "..%2Fescape.md" "x").1 = .ok () ∧
    (api_put_file ⟨⟨true, [PComp.normal "vault"]⟩, "tok"⟩ vfsEmpty (some "Bearer tok")
        "..%2Fescape.md" "x").2 ⟨true, [PComp.normal "escape.md"]⟩ = some "x" ∧
    pathStartsWith ⟨true, [PComp.normal "escape.md"]⟩ ⟨true, [PComp.normal "vault"]⟩ = false := by
  refine ⟨by decide, by decide, by decide⟩

/-! ### Diff codec lemmas -/

lemma splitNL_ne_nil (s : List Char) : splitNL s ≠ [] := by
  cases s with
  | nil => simp [splitNL]
  | cons c r =>
    simp only [splitNL]
    rcases h : splitNL r with _ | ⟨l, ls⟩
    · simp
    · simp only [h]
      split <;> simp

lemma joinNL_cons_of_ne_nil (l : List Char) {ls : List (List Char)} (h : ls ≠ []) :
    joinNL (l :: ls) = l ++ '\n' :: joinNL ls := by
  cases ls with
  | nil => exact absurd rfl h
  | cons l2 ls2 => rfl

lemma joinNL_splitNL (s : List Char) : joinNL (splitNL s) = s := by
  induction s with
  | nil => rfl
  | cons c r ih =>
    simp only [splitNL]
    rcases h : splitNL r with _ | ⟨l, ls⟩
    · exact absurd h (splitNL_ne_nil r)
    · simp only [h]
      rw [h] at ih
      by_cases hc : c = '\n'
      · subst hc
        rw [if_pos rfl, joinNL_cons_of_ne_nil [] (List.cons_ne_nil l ls)]
        simpa using ih
      · rw [if_neg hc]
        cases ls with
        | nil => exact congrArg (fun x => c :: x) ih
        | cons l2 ls2 =>
          rw [joinNL_cons_of_ne_nil (c :: l) (List.cons_ne_nil _ _), List.cons_append]
          rw [joinNL_cons_of_ne_nil l (List.cons_ne_nil _ _)] at ih
          rw [ih]

lemma tokenizeLines_ne_nil {s : List Char} (h : s ≠ []) : tokenizeLines s ≠ [] := by
  cases s with
  | nil => exact absurd rfl h
  | cons c r =>
    simp only [tokenizeLines]
    split
    · simp
    · rcases tokenizeLines r with _ | ⟨l, ls⟩ <;> simp

lemma tokenizeLines_mem_ne_nil : ∀ {s t : List Char}, t ∈ tokenizeLines s → t ≠ [] := by
  intro s
  induction s with
  | nil => intro t ht; simp [tokenizeLines] at ht
  | cons c r ih =>
    intro t ht
    simp only [tokenizeLines] at ht
    split at ht
    · rcases List.mem_cons.mp ht with h | h
      · subst h; simp
      · exact ih h
    · rcases hr : tokenizeLines r with _ | ⟨l, ls⟩
      · rw [hr] at ht
        simp at ht
        subst ht; simp
      · rw [hr] at ht
        rcases List.mem_cons.mp ht with h | h
        · subst h; simp
        · exact ih (hr ▸ List.mem_cons_of_mem l h)

lemma stripTrailingNL_cons (c : Char) {l : List Char} (hl : l ≠ []) :
    stripTrailingNL (c :: l) = c :: stripTrailingNL l := by
  cases l with
  | nil => exact absurd rfl hl
  | cons x xs =>
    unfold stripTrailingNL
    rw [List.getLast?_cons_cons]
    split
    · rw [List.dropLast_cons₂]
    · rfl

lemma nlTerminated_cons (c : Char) (r : List Char) :
    nlTerminated (c :: r) = if r = [] then (c == '\n') else nlTerminated r := by
  cases r with
  | nil => simp [nlTerminated]
  | cons x xs =>
    simp only [nlTerminated, List.getLast?_cons_cons]
    simp

lemma tailPart_cons (c : Char) {r : List Char} (hr : r ≠ []) :
    tailPart (c :: r) = tailPart r := by
  unfold tailPart
  rw [nlTerminated_cons, if_neg hr]

/-- The `split('\n')` decomposition is the stripped line tokens followed by
the tail segment. -/
lemma splitNL_eq_tokens (s : List Char) :
    splitNL s = (tokenizeLines s).map stripTrailingNL ++ tailPart s := by
  induction s with
  | nil => simp [splitNL, tokenizeLines, tailPart, nlTerminated]
  | cons c r ih =>
    by_cases hc : c = '\n'
    · subst hc
      have h1 : splitNL ('\n' :: r) = [] :: splitNL r := by
        simp only [splitNL]
        rcases h : splitNL r with _ | ⟨l, ls⟩
        · exact absurd h (splitNL_ne_nil r)
        · simp
      have h2 : tailPart ('\n' :: r) = tailPart r := by
        cases hr : r with
        | nil => simp [tailPart, nlTerminated]
        | cons x xs => exact tailPart_cons _ (by simp)
      rw [h1, ih, h2]
      simp [tokenizeLines, stripTrailingNL]
    · cases hr : r with
      | nil =>
        subst hr
        simp [splitNL, tokenizeLines, stripTrailingNL, tailPart, nlTerminated, hc]
      | cons x xs =>
        rw [← hr]
        have hrne : r ≠ [] := by rw [hr]; simp
        rcases ht : tokenizeLines r with _ | ⟨t0, ts⟩
        · exact absurd ht (tokenizeLines_ne_nil hrne)
        · have ht0 : t0 ≠ [] := tokenizeLines_mem_ne_nil (ht ▸ List.mem_cons_self t0 ts)
          have h1 : splitNL (c :: r) =
              (c :: stripTrailingNL t0) :: ((ts.map stripTrailingNL) ++ tailPart r) := by
            simp only [splitNL]
            rcases hsp : splitNL r with _ | ⟨l, ls⟩
            · exact absurd hsp (splitNL_ne_nil r)
            · simp only [hsp]
              rw [if_neg hc]
              rw [hsp, ht] at ih
              simp only [List.map_cons, List.cons_append] at ih
              rw [List.cons.injEq] at ih
              rw [ih.1, ih.2]
          have h2 : tokenizeLines (c :: r) = (c :: t0) :: ts := by
            simp only [tokenizeLines, if_neg hc, ht]
          rw [h1, h2, tailPart_cons c hrne]
          simp [stripTrailingNL_cons c ht0]

lemma applyOps_append (lines : List (List Char)) (xs ys : List DiffOp) :
    ∀ pos, applyOps lines pos (xs ++ ys) =
      match applyOps lines pos xs with
      | none => none
      | some r =>
        match applyOps lines r.1 ys with
        | none => none
        | some r2 => some (r2.1, r.2 ++ r2.2) := by
  induction xs with
  | nil =>
    intro pos
    simp only [List.nil_append, applyOps]
    cases h : applyOps lines pos ys with
    | none => rfl
    | some r2 => cases r2; rfl
  | cons op xs ih =>
    intro pos
    cases op with
    | eq n =>
      simp only [List.cons_append, applyOps, List.append_eq]
      by_cases hb : pos + n ≤ lines.length
      · simp only [if_pos hb, ih (pos + n)]
        cases h1 : applyOps lines (pos + n) xs with
        | none => simp
        | some r =>
          cases h2 : applyOps lines r.1 ys with
          | none => simp [h2]
          | some r2 => simp [h2, List.append_assoc]
      · simp only [if_neg hb]
    | del n =>
      simp only [List.cons_append, applyOps, List.append_eq]
      by_cases hb : pos + n ≤ lines.length
      · simp only [if_pos hb, ih (pos + n)]
      · simp only [if_neg hb]
    | ins zs =>
      simp only [List.cons_append, applyOps, List.append_eq]
      rw [ih pos]
      cases h1 : applyOps lines pos xs with
      | none => simp
      | some r =>
        cases h2 : applyOps lines r.1 ys with
        | none => simp [h2]
        | some r2 => simp [h2, List.append_assoc]

lemma opsEquiv_refl (l : List DiffOp) : OpsEquiv l l := fun _ _ => rfl

lemma opsEquiv_trans {a b c : List DiffOp} (h1 : OpsEquiv a b) (h2 : OpsEquiv b c) :
    OpsEquiv a c := fun lines pos => (h1 lines pos).trans (h2 lines pos)

lemma opsEquiv_symm {a b : List DiffOp} (h : OpsEquiv a b) : OpsEquiv b a :=
  fun lines pos => (h lines pos).symm

lemma opsEquiv_append_left {t₁ t₂ : List DiffOp} (h : OpsEquiv t₁ t₂) (p : List DiffOp) :
    OpsEquiv (p ++ t₁) (p ++ t₂) := by
  intro lines pos
  rw [applyOps_append, applyOps_append]
  cases hp : applyOps lines pos p with
  | none => rfl
  | some r =>
    exact congrArg
      (fun x =>
        match x with
        | none => none
        | some r2 => some (r2.1, r.2 ++ r2.2)) (h lines r.1)

lemma opsEquiv_append_right {t₁ t₂ : List DiffOp} (h : OpsEquiv t₁ t₂) (s : List DiffOp) :
    OpsEquiv (t₁ ++ s) (t₂ ++ s) := by
  intro lines pos
  rw [applyOps_append, applyOps_append, h lines pos]

lemma opsEquiv_eq_merge (a b : Nat) : OpsEquiv [.eq a, .eq b] [.eq (a + b)] := by
  intro lines pos
  simp only [applyOps]
  by_cases h1 : pos + a ≤ lines.length
  · by_cases h2 : pos + a + b ≤ lines.length
    · have h3 : pos + (a + b) ≤ lines.length := by omega
      simp only [if_pos h1, if_pos h2, if_pos h3]
      have hdd : lines.drop (pos + a) = (lines.drop pos).drop a := by
        rw [List.drop_drop, Nat.add_comm]
      simp only [Nat.add_assoc, List.append_nil]
      rw [hdd, ← List.take_add]
    · have h3 : ¬pos + (a + b) ≤ lines.length := by omega
      simp [if_pos h1, if_neg h2, if_neg h3]
  · have h2 : ¬pos + (a + b) ≤ lines.length := by omega
    simp [if_neg h1, if_neg h2]

lemma opsEquiv_del_merge (a b : Nat) : OpsEquiv [.del a, .del b] [.del (a + b)] := by
  intro lines pos
  simp only [applyOps]
  by_cases h1 : pos + a ≤ lines.length
  · by_cases h2 : pos + a + b ≤ lines.length
    · have h3 : pos + (a + b) ≤ lines.length := by omega
      simp only [if_pos h1, if_pos h2, if_pos h3, Nat.add_assoc]
    · have h3 : ¬pos + (a + b) ≤ lines.length := by omega
      simp [if_pos h1, if_neg h2, if_neg h3]
  · have h2 : ¬pos + (a + b) ≤ lines.length := by omega
    simp [if_neg h1, if_neg h2]

lemma opsEquiv_ins_merge (xs ys : List (List Char)) :
    OpsEquiv [.ins xs, .ins ys] [.ins (xs ++ ys)] := by
  intro lines pos
  simp [applyOps, List.append_assoc]

lemma opsEquiv_del_ins_comm (d : Nat) (xs : List (List Char)) :
    OpsEquiv [.del d, .ins xs] [.ins xs, .del d] := by
  intro lines pos
  simp only [applyOps]
  by_cases h : pos + d ≤ lines.length
  · simp [if_pos h]
  · simp [if_neg h]

lemma flushEq_ops (s : GenState) :
    (flushEq s).ops = s.ops ++ (if 0 < s.eqCount then [DiffOp.eq s.eqCount] else []) := by
  unfold flushEq
  split <;> simp_all <;> omega

lemma flushEq_eqCount (s : GenState) : (flushEq s).eqCount = 0 := by
  unfold flushEq
  split <;> simp_all <;> omega

lemma flushEq_delCount (s : GenState) : (flushEq s).delCount = s.delCount := by
  unfold flushEq
  split <;> rfl

lemma flushEq_insLines (s : GenState) : (flushEq s).insLines = s.insLines := by
  unfold flushEq
  split <;> rfl

lemma flushDel_ops (s : GenState) :
    (flushDel s).ops = s.ops ++ (if 0 < s.delCount then [DiffOp.del s.delCount] else []) := by
  unfold flushDel
  split <;> simp_all <;> omega

lemma flushDel_delCount (s : GenState) : (flushDel s).delCount = 0 := by
  unfold flushDel
  split <;> simp_all <;> omega

lemma flushDel_eqCount (s : GenState) : (flushDel s).eqCount = s.eqCount := by
  unfold flushDel
  split <;> rfl

lemma flushDel_insLines (s : GenState) : (flushDel s).insLines = s.insLines := by
  unfold flushDel
  split <;> rfl

lemma flushIns_ops (s : GenState) :
    (flushIns s).ops = s.ops ++ (if s.insLines ≠ [] then [DiffOp.ins s.insLines] else []) := by
  unfold flushIns
  split <;> simp_all

lemma flushIns_insLines (s : GenState) : (flushIns s).insLines = [] := by
  unfold flushIns
  split <;> simp_all

lemma flushIns_eqCount (s : GenState) : (flushIns s).eqCount = s.eqCount := by
  unfold flushIns
  split <;> rfl

lemma flushIns_delCount (s : GenState) : (flushIns s).delCount = s.delCount := by
  unfold flushIns
  split <;> rfl

lemma flushAll_ops (s : GenState) :
    (flushIns (flushDel (flushEq s))).ops = s.ops ++ pendingOps s := by
  simp [flushIns_ops, flushDel_ops, flushEq_ops, flushDel_insLines, flushEq_insLines,
    flushDel_delCount, flushEq_delCount, pendingOps, List.append_assoc]

lemma genInv_genStep {s : GenState} (c : Change) (_ : GenInv s) : GenInv (genStep s c) := by
  cases c with
  | equal t =>
    intro _
    constructor
    · simp [genStep, flushIns_delCount, flushDel_delCount]
    · simp [genStep, flushIns_insLines]
  | delete t =>
    intro hpos
    exfalso
    simp [genStep, flushIns_eqCount, flushEq_eqCount] at hpos
  | insert t =>
    intro hpos
    exfalso
    simp [genStep, flushEq_eqCount] at hpos

lemma opsEquiv_del_ins_del (d : Nat) (i : List (List Char)) :
    OpsEquiv [DiffOp.del d, .ins i, .del 1] [.ins i, .del (d + 1)] := by
  intro lines pos
  simp only [applyOps]
  by_cases h2 : pos + d + 1 ≤ lines.length
  · have h1 : pos + d ≤ lines.length := by omega
    have h3 : pos + (d + 1) ≤ lines.length := by omega
    simp [if_pos h1, if_pos h2, if_pos h3, show pos + d + 1 = pos + (d + 1) by omega]
  · have h3 : ¬pos + (d + 1) ≤ lines.length := by omega
    by_cases h1 : pos + d ≤ lines.length
    · simp [if_pos h1, if_neg h2, if_neg h3]
    · simp [if_neg h1, if_neg h3]

/-- One generator step turns the pending runs plus the canonical op of the
change into the new pending runs, up to applicative equivalence. -/
lemma genStep_core (s : GenState) (c : Change) (hInv : GenInv s) :
    OpsEquiv ((genStep s c).ops ++ pendingOps (genStep s c))
      (s.ops ++ pendingOps s ++ canonOps c) := by
  cases c with
  | equal t =>
    have hops : (genStep s (.equal t)).ops =
        s.ops ++ (if 0 < s.delCount then [DiffOp.del s.delCount] else []) ++
          (if s.insLines ≠ [] then [DiffOp.ins s.insLines] else []) := by
      simp [genStep, flushIns_ops, flushDel_ops, flushDel_insLines]
    have hpend : pendingOps (genStep s (.equal t)) = [DiffOp.eq (s.eqCount + 1)] := by
      have heq : (genStep s (.equal t)).eqCount = s.eqCount + 1 := by
        simp [genStep, flushIns_eqCount, flushDel_eqCount]
      have hdel : (genStep s (.equal t)).delCount = 0 := by
        simp [genStep, flushIns_delCount, flushDel_delCount]
      have hins : (genStep s (.equal t)).insLines = [] := by
        simp [genStep, flushIns_insLines]
      simp [pendingOps, heq, hdel, hins]
    rcases Nat.eq_zero_or_pos s.eqCount with he | he
    · have hlist : (genStep s (.equal t)).ops ++ pendingOps (genStep s (.equal t)) =
          s.ops ++ pendingOps s ++ canonOps (.equal t) := by
        rw [hops, hpend]
        simp [pendingOps, he, canonOps, List.append_assoc]
      rw [hlist]
      exact opsEquiv_refl _
    · obtain ⟨hd, hi⟩ := hInv he
      have h1 : (genStep s (.equal t)).ops ++ pendingOps (genStep s (.equal t)) =
          s.ops ++ [DiffOp.eq (s.eqCount + 1)] := by
        rw [hops, hpend]
        simp [hd, hi]
      have h2 : s.ops ++ pendingOps s ++ canonOps (.equal t) =
          s.ops ++ ([DiffOp.eq s.eqCount, DiffOp.eq 1]) := by
        simp [pendingOps, he, hd, hi, canonOps, List.append_assoc]
      rw [h1, h2]
      exact opsEquiv_append_left (opsEquiv_symm (opsEquiv_eq_merge s.eqCount 1)) s.ops
  | delete t =>
    have hops : (genStep s (.delete t)).ops =
        s.ops ++ (if 0 < s.eqCount then [DiffOp.eq s.eqCount] else []) ++
          (if s.insLines ≠ [] then [DiffOp.ins s.insLines] else []) := by
      simp [genStep, flushIns_ops, flushEq_ops, flushEq_insLines]
    have hpend : pendingOps (genStep s (.delete t)) = [DiffOp.del (s.delCount + 1)] := by
      have heq : (genStep s (.delete t)).eqCount = 0 := by
        simp [genStep, flushIns_eqCount, flushEq_eqCount]
      have hdel : (genStep s (.delete t)).delCount = s.delCount + 1 := by
        simp [genStep, flushIns_delCount, flushEq_delCount]
      have hins : (genStep s (.delete t)).insLines = [] := by
        simp [genStep, flushIns_insLines]
      simp [pendingOps, heq, hdel, hins]
    rcases Nat.eq_zero_or_pos s.delCount with hd | hd
    · have hlist : (genStep s (.delete t)).ops ++ pendingOps (genStep s (.delete t)) =
          s.ops ++ pendingOps s ++ canonOps (.delete t) := by
        rw [hops, hpend]
        simp [pendingOps, hd, canonOps, List.append_assoc]
      rw [hlist]
      exact opsEquiv_refl _
    · have he : s.eqCount = 0 := by
        by_contra hne
        exact absurd (hInv (Nat.pos_of_ne_zero hne)).1 (by omega)
      by_cases hi : s.insLines = []
      · have h1 : (genStep s (.delete t)).ops ++ pendingOps (genStep s (.delete t)) =
            s.ops ++ [DiffOp.del (s.delCount + 1)] := by
          rw [hops, hpend]
          simp [he, hi]
        have h2 : s.ops ++ pendingOps s ++ canonOps (.delete t) =
            s.ops ++ ([DiffOp.del s.delCount, DiffOp.del 1]) := by
          simp [pendingOps, he, hd, hi, canonOps, List.append_assoc]
        rw [h1, h2]
        exact opsEquiv_append_left (opsEquiv_symm (opsEquiv_del_merge s.delCount 1)) s.ops
      · have h1 : (genStep s (.delete t)).ops ++ pendingOps (genStep s (.delete t)) =
            s.ops ++ [DiffOp.ins s.insLines, DiffOp.del (s.delCount + 1)] := by
          rw [hops, hpend]
          simp [he, hi]
        have h2 : s.ops ++ pendingOps s ++ canonOps (.delete t) =
            s.ops ++ ([DiffOp.del s.delCount, DiffOp.ins s.insLines, DiffOp.del 1]) := by
          simp [pendingOps, he, hd, hi, canonOps, List.append_assoc]
        rw [h1, h2]
        exact opsEquiv_append_left
          (opsEquiv_symm (opsEquiv_del_ins_del s.delCount s.insLines)) s.ops
  | insert t =>
    have hops : (genStep s (.insert t)).ops =
        s.ops ++ (if 0 < s.eqCount then [DiffOp.eq s.eqCount] else []) := by
      simp [genStep, flushEq_ops]
    have hdel : (genStep s (.insert t)).delCount = s.delCount := by
      simp [genStep, flushEq_delCount]
    have heqc : (genStep s (.insert t)).eqCount = 0 := by
      simp [genStep, flushEq_eqCount]
    have hinsl : (genStep s (.insert t)).insLines = s.insLines ++ [stripTrailingNL t] := by
      simp [genStep, flushEq_insLines]
    have hpend : pendingOps (genStep s (.insert t)) =
        (if 0 < s.delCount then [DiffOp.del s.delCount] else []) ++
          [DiffOp.ins (s.insLines ++ [stripTrailingNL t])] := by
      simp [pendingOps, heqc, hdel, hinsl]
    by_cases hi : s.insLines = []
    · have hlist : (genStep s (.insert t)).ops ++ pendingOps (genStep s (.insert t)) =
          s.ops ++ pendingOps s ++ canonOps (.insert t) := by
        rw [hops, hpend]
        simp [pendingOps, hi, canonOps, List.append_assoc]
      rw [hlist]
      exact opsEquiv_refl _
    · have h1 : (genStep s (.insert t)).ops ++ pendingOps (genStep s (.insert t)) =
          (s.ops ++ (if 0 < s.eqCount then [DiffOp.eq s.eqCount] else []) ++
            (if 0 < s.delCount then [DiffOp.del s.delCount] else [])) ++
            [DiffOp.ins (s.insLines ++ [stripTrailingNL t])] := by
        rw [hops, hpend]
        simp [List.append_assoc]
      have h2 : s.ops ++ pendingOps s ++ canonOps (.insert t) =
          (s.ops ++ (if 0 < s.eqCount then [DiffOp.eq s.eqCount] else []) ++
            (if 0 < s.delCount then [DiffOp.del s.delCount] else [])) ++
            ([DiffOp.ins s.insLines, DiffOp.ins [stripTrailingNL t]]) := by
        simp [pendingOps, hi, canonOps, List.append_assoc]
      rw [h1, h2]
      exact opsEquiv_append_left
        (opsEquiv_symm (opsEquiv_ins_merge s.insLines [stripTrailingNL t])) _

lemma generateOps_equiv_canon_aux :
    ∀ (cs : List Change) (s : GenState), GenInv s →
      OpsEquiv ((flushIns (flushDel (flushEq (cs.foldl genStep s)))).ops)
        (s.ops ++ pendingOps s ++ canon cs) := by
  intro cs
  induction cs with
  | nil =>
    intro s _
    rw [List.foldl_nil, flushAll_ops]
    have h : s.ops ++ pendingOps s ++ canon [] = s.ops ++ pendingOps s := by
      simp [canon]
    rw [h]
    exact opsEquiv_refl _
  | cons c cs ih =>
    intro s hs
    rw [List.foldl_cons]
    refine opsEquiv_trans (ih (genStep s c) (genInv_genStep c hs)) ?_
    have hcanon : canon (c :: cs) = canonOps c ++ canon cs := by
      simp [canon]
    rw [hcanon]
    have h := opsEquiv_append_right (genStep_core s c hs) (canon cs)
    simp only [List.append_assoc] at h ⊢
    exact h

/-- The generator's run-length-collapsed ops apply exactly like the
canonical one-op-per-change script. -/
lemma generateOps_equiv_canon (cs : List Change) : OpsEquiv (generateOps cs) (canon cs) := by
  have h := generateOps_equiv_canon_aux cs ⟨[], 0, 0, []⟩ (fun _ => ⟨rfl, rfl⟩)
  intro lines pos
  have hp : pendingOps ⟨[], 0, 0, []⟩ = [] := by simp [pendingOps]
  rw [generateOps]
  rw [h lines pos, hp]
  simp

/-- Applying the canonical script of a change list: the cursor walks the
old-side tokens and the output is the stripped new-side tokens. -/
lemma applyOps_canon :
    ∀ (cs : List Change) (lines : List (List Char)) (pos : Nat) (tl : List (List Char)),
      lines.drop pos = (oldSideOf cs).map stripTrailingNL ++ tl →
      applyOps lines pos (canon cs) =
        some (pos + (oldSideOf cs).length, (newSideOf cs).map stripTrailingNL) := by
  intro cs
  induction cs with
  | nil =>
    intro lines pos tl _
    simp [canon, applyOps, oldSideOf, newSideOf]
  | cons c cs ih =>
    intro lines pos tl h
    have hcanon : canon (c :: cs) = canonOps c ++ canon cs := by
      simp [canon]
    cases c with
    | equal t =>
      simp only [oldSideOf, List.map_cons] at h
      have hlt : pos + 1 ≤ lines.length := by
        have hlen := congrArg List.length h
        simp [List.length_drop] at hlen
        omega
      have htake : (lines.drop pos).take 1 = [stripTrailingNL t] := by
        rw [h]
        rfl
      have hdrop : lines.drop (pos + 1) =
          (oldSideOf cs).map stripTrailingNL ++ tl := by
        have : lines.drop (pos + 1) = (lines.drop pos).drop 1 := by
          rw [List.drop_drop, Nat.add_comm]
        rw [this, h]
        rfl
      rw [hcanon]
      simp only [canonOps, List.append_eq, List.cons_append, List.nil_append, applyOps,
        if_pos hlt]
      rw [ih lines (pos + 1) tl hdrop]
      simp only [oldSideOf, newSideOf, List.map_cons, List.length_cons, htake]
      refine congrArg some (Prod.ext ?_ ?_)
      · simp
        omega
      · simp
    | delete t =>
      simp only [oldSideOf, List.map_cons] at h
      have hlt : pos + 1 ≤ lines.length := by
        have hlen := congrArg List.length h
        simp [List.length_drop] at hlen
        omega
      have hdrop : lines.drop (pos + 1) =
          (oldSideOf cs).map stripTrailingNL ++ tl := by
        have : lines.drop (pos + 1) = (lines.drop pos).drop 1 := by
          rw [List.drop_drop, Nat.add_comm]
        rw [this, h]
        rfl
      rw [hcanon]
      simp only [canonOps, List.append_eq, List.cons_append, List.nil_append, applyOps,
        if_pos hlt]
      rw [ih lines (pos + 1) tl hdrop]
      simp only [oldSideOf, newSideOf, List.length_cons]
      refine congrArg some (Prod.ext ?_ ?_)
      · simp
        omega
      · simp
    | insert t =>
      simp only [oldSideOf] at h
      rw [hcanon]
      simp only [canonOps, List.append_eq, List.cons_append, List.nil_append, applyOps]
      rw [ih lines pos tl h]
      simp [oldSideOf, newSideOf]

/-- C2 (amended): applying the generated diff reproduces the new content
whenever old and new agree on newline termination (the empty content counts
as newline-terminated) or the new content is empty.  Stated for an arbitrary
valid edit script, which covers whatever script the `similar` crate's Myers
diff yields. -/
theorem apply_generate_roundtrip (old new : List Char) (cs : List Change)
    (hv : ValidScript old new cs)
    (hnl : nlTerminated old = nlTerminated new ∨ new = []) :
    apply_line_diff old (generateOps cs) = some new := by
  obtain ⟨hold, hnew⟩ := hv
  unfold apply_line_diff
  rw [generateOps_equiv_canon cs (splitNL old) 0]
  have hsplit := splitNL_eq_tokens old
  have happly := applyOps_canon cs (splitNL old) 0 (tailPart old)
    (by simpa [hold] using hsplit)
  rw [happly]
  show some (joinNL ((newSideOf cs).map stripTrailingNL ++
      (splitNL old).drop (0 + (oldSideOf cs).length))) = some new
  have hdrop : (splitNL old).drop (0 + (oldSideOf cs).length) = tailPart old := by
    have hlen : (0 + (oldSideOf cs).length) =
        ((tokenizeLines old).map stripTrailingNL).length := by
      simp [hold]
    rw [hlen, hsplit, List.drop_left]
  rw [hdrop, hnew]
  rcases hnl with hiff | hnil
  · have ht : tailPart old = tailPart new := by
      unfold tailPart
      rw [hiff]
    rw [ht, ← splitNL_eq_tokens new]
    exact congrArg some (joinNL_splitNL new)
  · subst hnil
    simp only [tokenizeLines, List.map_nil, List.nil_append]
    unfold tailPart
    split
    · rfl
    · rfl

/-- Any valid script for old tokens `[]` and new tokens `[["a"]]` is the
single insertion: the counterexample below does not depend on which script
the `similar` crate would produce. -/
lemma validScript_nil_single_unique (cs : List Change)
    (hv : ValidScript [] ['a'] cs) : cs = [.insert ['a']] := by
  obtain ⟨hold, hnew⟩ := hv
  have htok : tokenizeLines ['a'] = [['a']] := by decide
  rw [htok] at hnew
  rw [show tokenizeLines [] = [] from rfl] at hold
  induction cs with
  | nil => simp [newSideOf] at hnew
  | cons c cs ih =>
    cases c with
    | equal t => simp [oldSideOf] at hold
    | delete t => simp [oldSideOf] at hold
    | insert t =>
      simp only [oldSideOf] at hold
      simp only [newSideOf] at hnew
      rw [List.cons.injEq] at hnew
      obtain ⟨ht, hrest⟩ := hnew
      subst ht
      cases cs with
      | nil => rfl
      | cons c2 cs2 =>
        exfalso
        cases c2 with
        | equal t2 => simp [oldSideOf] at hold
        | delete t2 => simp [oldSideOf] at hold
        | insert t2 => simp [newSideOf] at hrest

lemma diffChanges_valid : ∀ os ns, oldSideOf (diffChanges os ns) = os ∧
    newSideOf (diffChanges os ns) = ns := by
  intro os
  induction os with
  | nil =>
    intro ns
    constructor
    · induction ns with
      | nil => rfl
      | cons n ns ihn => simpa [diffChanges, oldSideOf] using ihn
    · induction ns with
      | nil => rfl
      | cons n ns ihn => simpa [diffChanges, newSideOf] using ihn
  | cons o os ih =>
    intro ns
    cases ns with
    | nil =>
      have h := ih []
      simp [diffChanges, oldSideOf, newSideOf, h.1, h.2]
    | cons n ns =>
      by_cases he : o = n
      · subst he
        have h := ih ns
        simp [diffChanges, oldSideOf, newSideOf, h.1, h.2]
      · have h := ih (n :: ns)
        simp [diffChanges, he, oldSideOf, newSideOf, h.1, h.2]

/-- C2 (counterexample): for `old = ""` and `new = "a"` the only valid edit
script is a single insertion, the generator emits `[{"ins": ["a"]}]`, and
applying it yields `"a\n"`, not `"a"` — the round trip adds a newline
because `apply` splits `""` into one empty line while the tokenizer of
`generate` sees no line at all. -/
theorem diff_roundtrip_counterexample :
    generate_line_diff [] ['a'] = [DiffOp.ins [['a']]] ∧
    apply_line_diff [] (generate_line_diff [] ['a']) = some ['a', '\n'] ∧
    (['a', '\n'] : List Char) ≠ ['a'] := by
  refine ⟨by decide, by decide, by decide⟩

/-- Witness for `apply_generate_roundtrip`: the edit `"a\nb" → "a\nc"`
(neither newline-terminated) round-trips through the generated script. -/
theorem apply_generate_roundtrip_witness :
    ValidScript ['a', '\n', 'b'] ['a', '\n', 'c']
        (diffChanges (tokenizeLines ['a', '\n', 'b']) (tokenizeLines ['a', '\n', 'c'])) ∧
    apply_line_diff ['a', '\n', 'b']
        (generateOps (diffChanges (tokenizeLines ['a', '\n', 'b'])
          (tokenizeLines ['a', '\n', 'c']))) = some ['a', '\n', 'c'] := by
  refine ⟨⟨by decide, by decide⟩, ?_⟩
  exact apply_generate_roundtrip _ _ _ ⟨by decide, by decide⟩ (Or.inl (by decide))

/-! ### Engine and subscriber lemmas -/

/-- C10: when stripping the root prefix fails — the event path is not under
`local_root` — both watcher handlers return at once: caches and file tree
unchanged, no remote call (and these handlers never write the filesystem at
all: their `fs` output is the input tree). -/
theorem handlers_noop_outside_root (deleteO : String → Bool) (sizeOk : List DiffOp → Bool)
    (keys : List String) (root : RustPath) (st : SyncState) (fs : SMap) (p : RustPath)
    (h : stripPrefix p root = none) :
    handle_local_change deleteO sizeOk root st fs p = ⟨st, fs, []⟩ ∧
    handle_local_folder_delete deleteO keys root st fs p = ⟨st, fs, []⟩ := by
  constructor
  · simp [handle_local_change, h]
  · simp [handle_local_folder_delete, h]

/-- Witness for `handlers_noop_outside_root`: `/other/x.md` is not under
`/vault`, and the change handler leaves everything untouched. -/
theorem handlers_noop_outside_root_witness :
    stripPrefix ⟨true, [PComp.normal "other", PComp.normal "x.md"]⟩
        ⟨true, [PComp.normal "vault"]⟩ = none ∧
    handle_local_change (fun _ => true) (fun _ => true) ⟨true, [PComp.normal "vault"]⟩
        syncInit smapEmpty ⟨true, [PComp.normal "other", PComp.normal "x.md"]⟩ =
      ⟨syncInit, smapEmpty, []⟩ :=
  ⟨by decide,
   (handlers_noop_outside_root (fun _ => true) (fun _ => true) [] _ syncInit smapEmpty _
     (by decide)).1⟩

lemma sseRun_removeFirstPut :
    ∀ (lines : List String) (et db : String),
      sseRun ⟨et, db, true⟩ lines = removeFirstPut (sseRunNF (et, db) lines) ∧
      sseRun ⟨et, db, false⟩ lines = sseRunNF (et, db) lines := by
  intro lines
  induction lines with
  | nil => intro et db; exact ⟨rfl, rfl⟩
  | cons line rest ih =>
    intro et db
    simp only [sseRun, sseRunNF, sseLineStep, sseLineStepNF]
    by_cases h1 : strStartsWith line "event:"
    · simp only [if_pos h1, List.nil_append]
      exact ⟨(ih _ _).1, (ih _ _).2⟩
    · by_cases h2 : strStartsWith line "data:"
      · simp only [if_neg h1, if_pos h2, List.nil_append]
        exact ⟨(ih _ _).1, (ih _ _).2⟩
      · by_cases h3 : line = "" ∧ et ≠ ""
        · simp only [if_neg h1, if_neg h2, if_pos h3]
          by_cases h4 : et = "put" ∨ et = "patch"
          · simp only [if_pos h4]
            constructor
            · by_cases h5 : et = "put"
              · simp only [if_pos (⟨trivial, h5⟩ : True ∧ et = "put"), List.nil_append,
                  removeFirstPut, h5, if_pos rfl]
                exact (ih "" "").2
              · simp only [if_neg (fun hh : True ∧ et = "put" => h5 hh.2), removeFirstPut,
                  if_neg h5, List.singleton_append]
                exact congrArg ((et, db) :: ·) (ih "" "").1
            · simp only [false_and, if_neg (fun hh : False ∧ et = "put" => hh.1),
                List.singleton_append]
              exact congrArg ((et, db) :: ·) (ih "" "").2
          · simp only [if_neg h4, List.nil_append]
            exact ⟨(ih "" "").1, (ih "" "").2⟩
        · simp only [if_neg h1, if_neg h2, if_neg h3, List.nil_append]
          exact ⟨(ih et db).1, (ih et db).2⟩

/-- C6: per connection, the dispatched events are exactly the completed
`put`/`patch` events minus the first `put` (`keep-alive` and any other event
type are never dispatched, by definition of the unfiltered parser), and the
subscription applies that rule to each (re)connection afresh, since the
first-put flag is re-initialized inside the reconnect loop. -/
theorem sse_first_put_filter (lines : List String) (conns : List (List String)) :
    connectionDispatches lines = removeFirstPut (sseRunNF ("", "") lines) ∧
    subscriptionDispatches conns =
      (conns.map fun ls => removeFirstPut (sseRunNF ("", "") ls)).flatten := by
  constructor
  · exact (sseRun_removeFirstPut lines "" "").1
  · unfold subscriptionDispatches
    congr 1
    exact List.map_congr_left fun ls _ => (sseRun_removeFirstPut ls "" "").1

lemma fetch_from_r2_calls (getO : String → Option String) (st : SyncState) (fs : SMap)
    (p : String) : (fetch_from_r2 getO st fs p).calls = [.get p] := by
  unfold fetch_from_r2
  cases getO p <;> rfl

lemma fetch_from_r2_fs (getO : String → Option String) (st : SyncState) (fs : SMap)
    (p c : String) (hc : getO p = some c) : (fetch_from_r2 getO st fs p).fs p = some c := by
  unfold fetch_from_r2
  rw [hc]
  simp [smapInsert]

/-- C5: on a `save` push event, when the old hash and diff are present, the
cached fingerprint matches, the file reads, and the diff applies, the file
is rewritten with the patched content and both caches updated with no
remote call; in every other case the handler is exactly `fetch_from_r2`,
which issues one GET for that path and overwrites the file with the fetched
content when the GET succeeds. -/
theorem rtdb_save_diff_or_fetch (getO : String → Option String) (st : SyncState)
    (fs : SMap) (entry : RtdbFileEntry) (hact : entry.action = "save") :
    (∀ oh d oldc newc,
      entry.old_hash = some oh → entry.diff = some d →
      st.local_hashes entry.path = some oh →
      fs entry.path = some oldc →
      apply_line_diff oldc.data d = some newc →
      handle_rtdb_event getO st fs entry =
        ⟨⟨smapInsert st.local_hashes entry.path (simple_hash ⟨newc⟩),
          smapInsert st.local_content_cache entry.path ⟨newc⟩,
          st.remote_modified⟩,
         smapInsert fs entry.path ⟨newc⟩, []⟩) ∧
    ((¬ ∃ oh d oldc newc, entry.old_hash = some oh ∧ entry.diff = some d ∧
        st.local_hashes entry.path = some oh ∧ fs entry.path = some oldc ∧
        apply_line_diff oldc.data d = some newc) →
      handle_rtdb_event getO st fs entry = fetch_from_r2 getO st fs entry.path ∧
      (fetch_from_r2 getO st fs entry.path).calls = [.get entry.path] ∧
      ∀ c, getO entry.path = some c →
        (fetch_from_r2 getO st fs entry.path).fs entry.path = some c) := by
  constructor
  · intro oh d oldc newc h1 h2 h3 h4 h5
    unfold handle_rtdb_event
    rw [hact]
    simp [h1, h2, h3, h4, h5]
  · intro hno
    refine ⟨?_, fetch_from_r2_calls getO st fs entry.path,
      fun c hc => fetch_from_r2_fs getO st fs entry.path c hc⟩
    unfold handle_rtdb_event
    rw [hact]
    rcases ho : entry.old_hash with _ | oh
    · simp [ho]
    · rcases hd : entry.diff with _ | d
      · simp [ho, hd]
      · rcases hl : st.local_hashes entry.path with _ | lh
        · simp [ho, hd, hl]
        · by_cases heq : lh = oh
          · rcases hf : fs entry.path with _ | oldc
            · simp [ho, hd, hl, hf, heq]
            · rcases ha : apply_line_diff oldc.data d with _ | newc
              · simp [ho, hd, hl, hf, ha, heq]
              · exact absurd ⟨oh, d, oldc, newc, ho, hd, heq ▸ hl, hf, ha⟩ hno
          · simp [ho, hd, hl, heq]

/-- Witness for `rtdb_save_diff_or_fetch`: spec scenario S2 — disk has
`x.md = "a\nb\nc"`, the push carries the matching old hash and the diff
`[eq 1, del 1, ins ["B"], eq 1]`, and the file becomes `"a\nB\nc"` with no
remote call. -/
theorem rtdb_save_diff_or_fetch_witness :
    apply_line_diff "a\nb\nc".data [DiffOp.eq 1, .del 1, .ins [['B']], .eq 1] =
      some "a\nB\nc".data ∧
    handle_rtdb_event (fun _ => none)
        ⟨fun p => if p = "x.md" then some (simple_hash "a\nb\nc") else none,
         fun p => if p = "x.md" then some "a\nb\nc" else none, smapEmpty⟩
        (fun p => if p = "x.md" then some "a\nb\nc" else none)
        ⟨"x.md", "save", none, some (simple_hash "a\nb\nc"),
          some [DiffOp.eq 1, .del 1, .ins [['B']], .eq 1], none, none, none⟩ =
      ⟨⟨smapInsert (fun p => if p = "x.md" then some (simple_hash "a\nb\nc") else none)
          "x.md" (simple_hash ⟨"a\nB\nc".data⟩),
        smapInsert (fun p => if p = "x.md" then some "a\nb\nc" else none)
          "x.md" ⟨"a\nB\nc".data⟩,
        smapEmpty⟩,
       smapInsert (fun p => if p = "x.md" then some "a\nb\nc" else none)
         "x.md" ⟨"a\nB\nc".data⟩, []⟩ := by
  refine ⟨by decide, ?_⟩
  exact (rtdb_save_diff_or_fetch (fun _ => none) _ _ _ rfl).1
    (simple_hash "a\nb\nc") [DiffOp.eq 1, .del 1, .ins [['B']], .eq 1]
    "a\nb\nc" "a\nB\nc".data rfl rfl (by simp) (by simp) (by decide)

lemma cacheInv_insert {st : SyncState} (h : CacheInv st) (p c : String) (rm : SMap) :
    CacheInv ⟨smapInsert st.local_hashes p (simple_hash c),
      smapInsert st.local_content_cache p c, rm⟩ := by
  intro k
  by_cases hk : k = p
  · simp [smapInsert, hk]
  · simp only [smapInsert]
    simp [hk, h k]

lemma cacheInv_remove {st : SyncState} (h : CacheInv st) (p : String) (rm : SMap) :
    CacheInv ⟨smapRemove st.local_hashes p, smapRemove st.local_content_cache p, rm⟩ := by
  intro k
  by_cases hk : k = p
  · simp [smapRemove, hk]
  · simp only [smapRemove]
    simp [hk, h k]

lemma cacheInv_move {st : SyncState} (h : CacheInv st) (old new : String) (rm : SMap) :
    CacheInv ⟨smapMove st.local_hashes old new,
      smapMove st.local_content_cache old new, rm⟩ := by
  intro k
  have hold := h old
  cases hc : st.local_content_cache old with
  | none =>
    rw [hc] at hold
    simp only [smapMove, hold, hc, Option.map_none']
    exact h k
  | some c =>
    have hh : st.local_hashes old = some (simple_hash c) := by
      rw [hold, hc]
      rfl
    simp only [smapMove, hh, hc, Option.map_some']
    by_cases hk : k = new
    · simp [smapInsert, hk]
    · by_cases hk2 : k = old
      · simp [smapInsert, smapRemove, hk, hk2]
      · simp [smapInsert, smapRemove, hk, hk2, h k]

lemma cacheInv_fetch {st : SyncState} (h : CacheInv st) (getO : String → Option String)
    (fs : SMap) (p : String) : CacheInv (fetch_from_r2 getO st fs p).state := by
  unfold fetch_from_r2
  cases hg : getO p with
  | some c => exact cacheInv_insert h p c st.remote_modified
  | none => exact h

lemma cacheInv_rtdb {st : SyncState} (h : CacheInv st) (getO : String → Option String)
    (fs : SMap) (entry : RtdbFileEntry) :
    CacheInv (handle_rtdb_event getO st fs entry).state := by
  unfold handle_rtdb_event
  by_cases hsave : entry.action = "save"
  · simp only [hsave]
    rcases ho : entry.old_hash with _ | oh
    · simp only [ho]
      exact cacheInv_fetch h getO fs entry.path
    · rcases hd : entry.diff with _ | d
      · simp only [ho, hd]
        exact cacheInv_fetch h getO fs entry.path
      · rcases hl : st.local_hashes entry.path with _ | lh
        · simp only [ho, hd, hl]
          exact cacheInv_fetch h getO fs entry.path
        · simp only [ho, hd, hl]
          by_cases heq : lh = oh
          · rcases hf : fs entry.path with _ | oldc
            · simp only [heq, if_pos rfl, hf]
              exact cacheInv_fetch h getO fs entry.path
            · rcases ha : apply_line_diff oldc.data d with _ | newc
              · simp only [heq, if_pos rfl, hf, ha]
                exact cacheInv_fetch h getO fs entry.path
              · simp only [heq, if_pos rfl, hf, ha]
                exact cacheInv_insert h entry.path ⟨newc⟩ st.remote_modified
          · simp only [if_neg heq]
            exact cacheInv_fetch h getO fs entry.path
  · by_cases hcreate : entry.action = "create"
    · simp only [hcreate, hsave]
      exact cacheInv_fetch h getO fs entry.path
    · by_cases hdel : entry.action = "delete"
      · simp only [hdel]
        rcases hf : fs entry.path with _ | c
        · simp only [hf]
          exact h
        · simp only [hf]
          exact cacheInv_remove h entry.path st.remote_modified
      · by_cases hren : entry.action = "rename"
        · simp only [hren]
          rcases hop : entry.old_path with _ | op
          · simp only [hop]
            exact h
          · rcases hf : fs op with _ | c
            · simp only [hop, hf]
              exact cacheInv_fetch h getO fs entry.path
            · simp only [hop, hf]
              exact cacheInv_move h op entry.path st.remote_modified
        · simp only [hsave, hcreate, hdel, hren]
          exact h

lemma cacheInv_local_change {st : SyncState} (h : CacheInv st) (deleteO : String → Bool)
    (sizeOk : List DiffOp → Bool) (root : RustPath) (fs : SMap) (full_path : RustPath) :
    CacheInv (handle_local_change deleteO sizeOk root st fs full_path).state := by
  unfold handle_local_change
  rcases hs : stripPrefix full_path root with _ | rel
  · exact h
  · rcases hf : fs (relString rel) with _ | content
    · simp only [hf]
      by_cases hdo : deleteO (relString rel)
      · simp only [hdo, if_pos rfl]
        exact cacheInv_remove h (relString rel) st.remote_modified
      · simp only [hdo]
        simp only [Bool.false_eq_true, if_false]
        exact h
    · simp only [hf]
      by_cases hne : st.local_hashes (relString rel) ≠ some (simple_hash content)
      · simp only [if_pos hne]
        exact cacheInv_insert h (relString rel) content st.remote_modified
      · simp only [if_neg hne]
        exact h

lemma cacheInv_folderDeleteLoop (deleteO : String → Bool) :
    ∀ (paths : List String) (st : SyncState), CacheInv st →
      CacheInv (folderDeleteLoop deleteO paths st).1 := by
  intro paths
  induction paths with
  | nil => intro st h; exact h
  | cons p rest ih =>
    intro st h
    unfold folderDeleteLoop
    by_cases hdo : deleteO p
    · simp only [hdo, if_pos rfl]
      exact ih _ (cacheInv_remove h p st.remote_modified)
    · simp only [hdo, Bool.false_eq_true, if_false]
      exact ih _ h

lemma cacheInv_folder_delete {st : SyncState} (h : CacheInv st) (deleteO : String → Bool)
    (keys : List String) (root : RustPath) (fs : SMap) (folder_path : RustPath) :
    CacheInv (handle_local_folder_delete deleteO keys root st fs folder_path).state := by
  unfold handle_local_folder_delete
  rcases hs : stripPrefix folder_path root with _ | rel
  · exact h
  · exact cacheInv_folderDeleteLoop deleteO _ st h

lemma cacheInv_downloadLoop (getO : String → Option String) :
    ∀ (items : List (String × Option String)) (st : SyncState) (fs : SMap), CacheInv st →
      CacheInv (downloadLoop getO items st fs).1 := by
  intro items
  induction items with
  | nil => intro st fs h; exact h
  | cons it rest ih =>
    intro st fs h
    unfold downloadLoop
    by_cases hsd : shouldDownload st fs it
    · simp only [hsd, if_pos rfl]
      cases hg : getO it.1 with
      | some c => exact ih _ _ (cacheInv_insert h it.1 c _)
      | none => exact ih _ _ h
    · simp only [hsd, Bool.false_eq_true, if_false]
      exact ih _ _ h

lemma cacheInv_uploadLoop (putO : String → Bool) (remote_paths : List String) (fs : SMap) :
    ∀ (paths : List String) (st : SyncState), CacheInv st →
      CacheInv (uploadLoop putO remote_paths fs paths st).1 := by
  intro paths
  induction paths with
  | nil => intro st h; exact h
  | cons p rest ih =>
    intro st h
    unfold uploadLoop
    by_cases hm : p ∈ remote_paths
    · simp only [if_pos hm]
      exact ih _ h
    · simp only [if_neg hm]
      rcases hf : fs p with _ | content
      · exact ih _ h
      · by_cases hp : putO p
        · simp only [hp, if_pos rfl]
          exact ih _ (cacheInv_insert h p content st.remote_modified)
        · simp only [hp, Bool.false_eq_true, if_false]
          exact ih _ h

lemma cacheInv_full_sync {st : SyncState} (h : CacheInv st) (getO : String → Option String)
    (putO : String → Bool) (files : List FileItem) (localPaths : List String) (fs : SMap) :
    CacheInv (full_sync getO putO files localPaths st fs).1 := by
  unfold full_sync
  exact cacheInv_uploadLoop _ _ _ _ _ (cacheInv_downloadLoop _ _ _ _ h)

/-- Every reachable engine state satisfies the cache invariant. -/
lemma cacheInv_reachable {st : SyncState} (h : ReachableSync st) : CacheInv st := by
  induction h with
  | init => intro k; rfl
  | fullSync getO putO files localPaths fs _ ih =>
    exact cacheInv_full_sync ih getO putO files localPaths fs
  | localChange deleteO sizeOk root fs full_path _ ih =>
    exact cacheInv_local_change ih deleteO sizeOk root fs full_path
  | folderDelete deleteO keys root fs folder_path _ ih =>
    exact cacheInv_folder_delete ih deleteO keys root fs folder_path
  | rtdbEvent getO fs entry _ ih =>
    exact cacheInv_rtdb ih getO fs entry

/-- C8: in every reachable engine state, a path carried by the fingerprint
cache is also in the content cache and its fingerprint is the hash of that
cached content. -/
theorem engine_cache_invariant (st : SyncState) (h : ReachableSync st) (k v : String)
    (hk : st.local_hashes k = some v) :
    ∃ c, st.local_content_cache k = some c ∧ v = simple_hash c := by
  have hc := cacheInv_reachable h k
  rw [hk] at hc
  cases hcache : st.local_content_cache k with
  | none =>
    rw [hcache] at hc
    simp at hc
  | some c =>
    rw [hcache] at hc
    simp at hc
    exact ⟨c, rfl, hc⟩

/-- Witness for `engine_cache_invariant`: after a single `create` push event
whose fetch returns `"x"`, the state is reachable and holds the fingerprint
of `"x"` for the fetched path, matching the cached content. -/
theorem engine_cache_invariant_witness :
    (handle_rtdb_event (fun _ => some "x") syncInit smapEmpty
        ⟨"a.md", "create", none, none, none, none, none, none⟩).state.local_hashes "a.md" =
      some (simple_hash "x") ∧
    ∃ c, (handle_rtdb_event (fun _ => some "x") syncInit smapEmpty
        ⟨"a.md", "create", none, none, none, none, none, none⟩).state.local_content_cache
          "a.md" = some c ∧ simple_hash "x" = simple_hash c := by
  have hk : (handle_rtdb_event (fun _ => some "x") syncInit smapEmpty
      ⟨"a.md", "create", none, none, none, none, none, none⟩).state.local_hashes "a.md" =
      some (simple_hash "x") := by
    simp [handle_rtdb_event, fetch_from_r2, smapInsert, syncInit, smapEmpty]
  exact ⟨hk, engine_cache_invariant _
    (ReachableSync.rtdbEvent (fun _ => some "x") smapEmpty
      ⟨"a.md", "create", none, none, none, none, none, none⟩ ReachableSync.init)
    "a.md" (simple_hash "x") hk⟩

lemma shouldDownload_congr {st st' : SyncState} {fs fs' : SMap} (it : String × Option String)
    (hfs : fs' it.1 = fs it.1) (hrm : st'.remote_modified it.1 = st.remote_modified it.1) :
    shouldDownload st' fs' it = shouldDownload st fs it := by
  unfold shouldDownload
  rw [hfs, hrm]

lemma downloadLoop_spec (getO : String → Option String) (st₀ : SyncState) (fs₀ : SMap) :
    ∀ (items : List (String × Option String)) (st : SyncState) (fs : SMap),
      (items.map Prod.fst).Nodup →
      (∀ it ∈ items, fs it.1 = fs₀ it.1 ∧
        st.remote_modified it.1 = st₀.remote_modified it.1) →
      (downloadLoop getO items st fs).2.2.1 =
        (items.filter (shouldDownload st₀ fs₀)).map (fun it => RemoteCall.get it.1) ∧
      (downloadLoop getO items st fs).2.2.2 =
        ((items.filter (shouldDownload st₀ fs₀)).filter
          (fun it => (getO it.1).isSome)).length := by
  intro items
  induction items with
  | nil => intro st fs _ _; exact ⟨rfl, rfl⟩
  | cons it rest ih =>
    intro st fs hnd hagree
    have hit := hagree it (List.mem_cons_self it rest)
    have hsd : shouldDownload st fs it = shouldDownload st₀ fs₀ it :=
      shouldDownload_congr it hit.1 hit.2
    rw [List.map_cons, List.nodup_cons] at hnd
    have hrest : ∀ j ∈ rest, j.1 ≠ it.1 := by
      intro j hj hjeq
      exact hnd.1 (hjeq ▸ List.mem_map_of_mem Prod.fst hj)
    have hagree_same : ∀ j ∈ rest, fs j.1 = fs₀ j.1 ∧
        st.remote_modified j.1 = st₀.remote_modified j.1 :=
      fun j hj => hagree j (List.mem_cons_of_mem it hj)
    unfold downloadLoop
    by_cases hb : shouldDownload st fs it
    · rw [if_pos hb]
      have hfil : (it :: rest).filter (shouldDownload st₀ fs₀) =
          it :: rest.filter (shouldDownload st₀ fs₀) := by
        rw [List.filter_cons_of_pos (hsd ▸ hb)]
      cases hg : getO it.1 with
      | some c =>
        have hagree' : ∀ j ∈ rest, smapInsert fs it.1 c j.1 = fs₀ j.1 ∧
            (⟨smapInsert st.local_hashes it.1 (simple_hash c),
              smapInsert st.local_content_cache it.1 c,
              match it.2 with
              | some m => smapInsert st.remote_modified it.1 m
              | none => st.remote_modified⟩ : SyncState).remote_modified j.1 =
              st₀.remote_modified j.1 := by
          intro j hj
          have hne := hrest j hj
          constructor
          · rw [show smapInsert fs it.1 c j.1 = fs j.1 by simp [smapInsert, hne]]
            exact (hagree_same j hj).1
          · have : (match it.2 with
                | some m => smapInsert st.remote_modified it.1 m
                | none => st.remote_modified) j.1 = st.remote_modified j.1 := by
              cases it.2 with
              | some m => simp [smapInsert, hne]
              | none => rfl
            exact this.trans (hagree_same j hj).2
        have IH := ih _ _ hnd.2 hagree'
        refine ⟨?_, ?_⟩
        · rw [hfil, List.map_cons]
          exact congrArg (RemoteCall.get it.1 :: ·) IH.1
        · rw [hfil, List.filter_cons_of_pos (by simp [hg]), List.length_cons]
          exact congrArg (· + 1) IH.2
      | none =>
        have IH := ih _ _ hnd.2 hagree_same
        refine ⟨?_, ?_⟩
        · rw [hfil, List.map_cons]
          exact congrArg (RemoteCall.get it.1 :: ·) IH.1
        · rw [hfil, List.filter_cons_of_neg (by simp [hg])]
          exact IH.2
    · rw [if_neg hb]
      have hfil : (it :: rest).filter (shouldDownload st₀ fs₀) =
          rest.filter (shouldDownload st₀ fs₀) := by
        rw [List.filter_cons_of_neg (hsd ▸ hb)]
      have IH := ih _ _ hnd.2 hagree_same
      rw [hfil]
      exact IH

lemma uploadLoop_calls (putO : String → Bool) (remote_paths : List String) (fs : SMap) :
    ∀ (paths : List String) (st : SyncState),
      (uploadLoop putO remote_paths fs paths st).2.1 =
        (paths.filter fun p => decide (p ∉ remote_paths) && (fs p).isSome).map
          (fun p => RemoteCall.put p ((fs p).getD "") none none) ∧
      (uploadLoop putO remote_paths fs paths st).2.2 =
        (paths.filter fun p =>
          decide (p ∉ remote_paths) && (fs p).isSome && putO p).length := by
  intro paths
  induction paths with
  | nil => intro st; exact ⟨rfl, rfl⟩
  | cons p rest ih =>
    intro st
    unfold uploadLoop
    by_cases hm : p ∈ remote_paths
    · rw [if_pos hm]
      have h1 : (p :: rest).filter
          (fun p => decide (p ∉ remote_paths) && (fs p).isSome) =
          rest.filter (fun p => decide (p ∉ remote_paths) && (fs p).isSome) := by
        rw [List.filter_cons_of_neg (by simp [hm])]
      have h2 : (p :: rest).filter
          (fun p => decide (p ∉ remote_paths) && (fs p).isSome && putO p) =
          rest.filter (fun p => decide (p ∉ remote_paths) && (fs p).isSome && putO p) := by
        rw [List.filter_cons_of_neg (by simp [hm])]
      rw [h1, h2]
      exact ih st
    · rw [if_neg hm]
      rcases hf : fs p with _ | content
      · simp only [hf]
        have h1 : (p :: rest).filter
            (fun p => decide (p ∉ remote_paths) && (fs p).isSome) =
            rest.filter (fun p => decide (p ∉ remote_paths) && (fs p).isSome) := by
          rw [List.filter_cons_of_neg (by simp [hf])]
        have h2 : (p :: rest).filter
            (fun p => decide (p ∉ remote_paths) && (fs p).isSome && putO p) =
            rest.filter (fun p => decide (p ∉ remote_paths) && (fs p).isSome && putO p) := by
          rw [List.filter_cons_of_neg (by simp [hf])]
        rw [h1, h2]
        exact ih st
      · simp only [hf]
        have h1 : (p :: rest).filter
            (fun p => decide (p ∉ remote_paths) && (fs p).isSome) =
            p :: rest.filter (fun p => decide (p ∉ remote_paths) && (fs p).isSome) := by
          rw [List.filter_cons_of_pos (by simp [hf, hm])]
        by_cases hp : putO p
        · rw [if_pos hp]
          have h2 : (p :: rest).filter
              (fun p => decide (p ∉ remote_paths) && (fs p).isSome && putO p) =
              p :: rest.filter
                (fun p => decide (p ∉ remote_paths) && (fs p).isSome && putO p) := by
            rw [List.filter_cons_of_pos (by simp [hf, hm, hp])]
          refine ⟨?_, ?_⟩
          · rw [h1, List.map_cons, hf]
            exact congrArg (RemoteCall.put p content none none :: ·) (ih _).1
          · rw [h2, List.length_cons]
            exact congrArg (· + 1) (ih _).2
        · rw [if_neg hp]
          have h2 : (p :: rest).filter
              (fun p => decide (p ∉ remote_paths) && (fs p).isSome && putO p) =
              rest.filter
                (fun p => decide (p ∉ remote_paths) && (fs p).isSome && putO p) := by
            rw [List.filter_cons_of_neg (by simp [hp])]
          refine ⟨?_, ?_⟩
          · rw [h1, List.map_cons, hf]
            exact congrArg (RemoteCall.put p content none none :: ·) (ih _).1
          · rw [h2]
            exact (ih _).2

lemma uploadLoop_hashes_frame (putO : String → Bool) (remote_paths : List String) (fs : SMap) :
    ∀ (paths : List String) (st : SyncState) (p : String), p ∉ paths →
      (uploadLoop putO remote_paths fs paths st).1.local_hashes p = st.local_hashes p := by
  intro paths
  induction paths with
  | nil => intro st p _; rfl
  | cons q rest ih =>
    intro st p hp
    have hpq : p ≠ q := fun h => hp (h ▸ List.mem_cons_self q rest)
    have hpr : p ∉ rest := fun h => hp (List.mem_cons_of_mem q h)
    unfold uploadLoop
    by_cases hm : q ∈ remote_paths
    · rw [if_pos hm]
      exact ih st p hpr
    · rw [if_neg hm]
      rcases hf : fs q with _ | content
      · simp only [hf]
        exact ih st p hpr
      · simp only [hf]
        by_cases hq : putO q
        · rw [if_pos hq]
          rw [ih _ p hpr]
          simp [smapInsert, hpq]
        · rw [if_neg hq]
          exact ih st p hpr

lemma uploadLoop_hashes (putO : String → Bool) (remote_paths : List String) (fs : SMap) :
    ∀ (paths : List String) (st : SyncState) (p : String), paths.Nodup →
      p ∈ paths → p ∉ remote_paths → ∀ c, fs p = some c → putO p = true →
      (uploadLoop putO remote_paths fs paths st).1.local_hashes p =
        some (simple_hash c) := by
  intro paths
  induction paths with
  | nil => intro st p _ hp; exact absurd hp (List.not_mem_nil p)
  | cons q rest ih =>
    intro st p hnd hp hnr c hc hput
    rw [List.nodup_cons] at hnd
    rcases List.mem_cons.mp hp with hpq | hpr
    · subst hpq
      unfold uploadLoop
      rw [if_neg hnr]
      simp only [hc]
      rw [if_pos hput]
      rw [uploadLoop_hashes_frame putO remote_paths fs rest _ p hnd.1]
      simp [smapInsert]
    · unfold uploadLoop
      by_cases hm : q ∈ remote_paths
      · rw [if_pos hm]
        exact ih _ p hnd.2 hpr hnr c hc hput
      · rw [if_neg hm]
        rcases hf : fs q with _ | content
        · simp only [hf]
          exact ih _ p hnd.2 hpr hnr c hc hput
        · simp only [hf]
          by_cases hq : putO q
          · rw [if_pos hq]
            exact ih _ p hnd.2 hpr hnr c hc hput
          · rw [if_neg hq]
            exact ih _ p hnd.2 hpr hnr c hc hput

/-- C9: `full_sync` issues a GET exactly for the remote entries whose local
file is absent or whose remote `modified` stamp differs from the stored
one; it issues a PUT exactly for the readable local paths missing from the
flattened remote listing (each failed transfer is skipped, never aborting
the batch — the call list and counts are total functions of the oracles);
it returns the `(downloaded, uploaded)` counts; and an uploaded path ends
with its fingerprint cached. -/
theorem full_sync_spec (getO : String → Option String) (putO : String → Bool)
    (files : List FileItem) (localPaths : List String) (st : SyncState) (fs : SMap)
    (hnd : ((flatten_files files).map Prod.fst).Nodup) (hnl : localPaths.Nodup) :
    (full_sync getO putO files localPaths st fs).2.2.1 =
      RemoteCall.list ::
        (((flatten_files files).filter (shouldDownload st fs)).map
            (fun it => RemoteCall.get it.1) ++
          (localPaths.filter fun p =>
              decide (p ∉ (flatten_files files).map Prod.fst) &&
                ((downloadLoop getO (flatten_files files) st fs).2.1 p).isSome).map
            (fun p => RemoteCall.put p
              (((downloadLoop getO (flatten_files files) st fs).2.1 p).getD "")
              none none) ++
          [RemoteCall.heartbeat]) ∧
    (full_sync getO putO files localPaths st fs).2.2.2 =
      ((((flatten_files files).filter (shouldDownload st fs)).filter
          (fun it => (getO it.1).isSome)).length,
        (localPaths.filter fun p =>
          decide (p ∉ (flatten_files files).map Prod.fst) &&
            ((downloadLoop getO (flatten_files files) st fs).2.1 p).isSome &&
              putO p).length) ∧
    (∀ p c, p ∈ localPaths → p ∉ (flatten_files files).map Prod.fst →
      (downloadLoop getO (flatten_files files) st fs).2.1 p = some c → putO p = true →
      (full_sync getO putO files localPaths st fs).1.local_hashes p =
        some (simple_hash c)) := by
  have hD := downloadLoop_spec getO st fs (flatten_files files) st fs hnd
    (fun _ _ => ⟨rfl, rfl⟩)
  have hU := uploadLoop_calls putO ((flatten_files files).map Prod.fst)
    (downloadLoop getO (flatten_files files) st fs).2.1 localPaths
    (downloadLoop getO (flatten_files files) st fs).1
  refine ⟨?_, ?_, ?_⟩
  · show RemoteCall.list ::
        (downloadLoop getO (flatten_files files) st fs).2.2.1 ++
          (uploadLoop putO ((flatten_files files).map Prod.fst)
            (downloadLoop getO (flatten_files files) st fs).2.1 localPaths
            (downloadLoop getO (flatten_files files) st fs).1).2.1 ++
          [RemoteCall.heartbeat] = _
    rw [hD.1, hU.1]
    simp [List.append_assoc]
  · show ((downloadLoop getO (flatten_files files) st fs).2.2.2,
      (uploadLoop putO ((flatten_files files).map Prod.fst)
        (downloadLoop getO (flatten_files files) st fs).2.1 localPaths
        (downloadLoop getO (flatten_files files) st fs).1).2.2) = _
    rw [hD.2, hU.2]
  · intro p c hp hnr hfs hput
    exact uploadLoop_hashes putO ((flatten_files files).map Prod.fst)
      (downloadLoop getO (flatten_files files) st fs).2.1 localPaths
      (downloadLoop getO (flatten_files files) st fs).1 p hnl hp hnr c hfs hput

/-- Witness for `full_sync_spec`: spec scenario S1 — one local file
`notes/a.md` with content `hello\nworld` against an empty remote listing:
zero downloads, one upload, and the fingerprint cached for the uploaded
path. -/
theorem full_sync_spec_witness :
    (((flatten_files ([] : List FileItem)).map Prod.fst).Nodup ∧
      (["notes/a.md"] : List String).Nodup) ∧
    (full_sync (fun _ => none) (fun _ => true) [] ["notes/a.md"] syncInit
        (fun p => if p = "notes/a.md" then some "hello\nworld" else none)).2.2.2 = (0, 1) ∧
    (full_sync (fun _ => none) (fun _ => true) [] ["notes/a.md"] syncInit
        (fun p => if p = "notes/a.md" then some "hello\nworld" else none)).1.local_hashes
      "notes/a.md" = some (simple_hash "hello\nworld") := by
  have h := full_sync_spec (fun _ => none) (fun _ => true) [] ["notes/a.md"] syncInit
    (fun p => if p = "notes/a.md" then some "hello\nworld" else none)
    (by simp [flatten_files]) (by decide)
  refine ⟨⟨by simp [flatten_files], by decide⟩, ?_, ?_⟩
  · rw [h.2.1]
    simp only [flatten_files]
    decide
  · exact h.2.2 "notes/a.md" "hello\nworld" (by decide)
      (by simp [flatten_files]) (by simp only [flatten_files]; decide) rfl

/-! ### Scanner lemmas -/

lemma charsLe_total : ∀ a b : List Char, charsLe a b = true ∨ charsLe b a = true := by
  intro a
  induction a with
  | nil => intro b; left; rfl
  | cons x xs ih =>
    intro b
    cases b with
    | nil => right; rfl
    | cons y ys =>
      by_cases hxy : x = y
      · subst hxy
        rcases ih ys with h | h
        · left; simpa [charsLe] using h
        · right; simpa [charsLe] using h
      · rcases lt_or_gt_of_ne hxy with h | h
        · left; simp [charsLe, hxy, h]
        · right; simp [charsLe, Ne.symm hxy, h]

lemma charsLe_trans : ∀ a b c : List Char,
    charsLe a b = true → charsLe b c = true → charsLe a c = true := by
  intro a
  induction a with
  | nil => intro b c _ _; rfl
  | cons x xs ih =>
    intro b c hab hbc
    cases b with
    | nil => simp [charsLe] at hab
    | cons y ys =>
      cases c with
      | nil => simp [charsLe] at hbc
      | cons z zs =>
        simp only [charsLe] at hab hbc ⊢
        by_cases hxy : x = y
        · subst hxy
          rw [if_pos rfl] at hab
          by_cases hyz : x = z
          · subst hyz
            rw [if_pos rfl] at hbc ⊢
            exact ih ys zs hab hbc
          · rw [if_neg hyz] at hbc ⊢
            exact hbc
        · rw [if_neg hxy] at hab
          have hlt1 : x < y := by simpa using hab
          by_cases hyz : y = z
          · subst hyz
            rw [if_neg hxy]
            simpa using hlt1
          · rw [if_neg hyz] at hbc
            have hlt2 : y < z := by simpa using hbc
            have hlt3 : x < z := lt_trans hlt1 hlt2
            rw [if_neg (ne_of_lt hlt3)]
            simpa using hlt3

lemma itemLe_total {a b : FileItem} (ha : KindOk a) (hb : KindOk b) :
    itemLe a b = true ∨ itemLe b a = true := by
  unfold itemLe KindOk at *
  rcases ha with ha | ha <;> rcases hb with hb | hb <;> simp [ha, hb] <;>
    exact charsLe_total _ _

lemma itemLe_trans {a b c : FileItem} (ha : KindOk a) (hb : KindOk b) (hc : KindOk c)
    (h1 : itemLe a b = true) (h2 : itemLe b c = true) : itemLe a c = true := by
  unfold itemLe KindOk at *
  rcases ha with ha | ha <;> rcases hb with hb | hb <;> rcases hc with hc | hc <;>
      simp [ha, hb, hc] at h1 h2 ⊢ <;>
    exact charsLe_trans _ _ _ h1 h2

lemma mem_insertItem {y x : FileItem} :
    ∀ {l : List FileItem}, y ∈ insertItem x l → y = x ∨ y ∈ l := by
  intro l
  induction l with
  | nil => intro h; simpa [insertItem] using h
  | cons z zs ih =>
    intro h
    unfold insertItem at h
    split at h
    · rcases List.mem_cons.mp h with h | h
      · exact Or.inl h
      · exact Or.inr h
    · rcases List.mem_cons.mp h with h | h
      · exact Or.inr (h ▸ List.mem_cons_self z zs)
      · rcases ih h with h | h
        · exact Or.inl h
        · exact Or.inr (List.mem_cons_of_mem z h)

lemma mem_sortItems {y : FileItem} :
    ∀ {l : List FileItem}, y ∈ sortItems l → y ∈ l := by
  intro l
  induction l with
  | nil => intro h; simpa [sortItems] using h
  | cons x xs ih =>
    intro h
    rcases mem_insertItem h with h | h
    · exact h ▸ List.mem_cons_self x xs
    · exact List.mem_cons_of_mem x (ih h)

lemma insertItem_pairwise {x : FileItem} (hx : KindOk x) :
    ∀ {l : List FileItem}, (∀ y ∈ l, KindOk y) →
      l.Pairwise (fun a b => itemLe a b = true) →
      (insertItem x l).Pairwise (fun a b => itemLe a b = true) := by
  intro l
  induction l with
  | nil => intro _ _; simp [insertItem]
  | cons y ys ih =>
    intro hl hs
    rw [List.pairwise_cons] at hs
    unfold insertItem
    by_cases hxy : itemLe x y = true
    · rw [if_pos hxy]
      refine List.Pairwise.cons ?_ (List.Pairwise.cons hs.1 hs.2)
      intro z hz
      rcases List.mem_cons.mp hz with hz | hz
      · exact hz ▸ hxy
      · exact itemLe_trans hx (hl y (List.mem_cons_self y ys))
          (hl z (List.mem_cons_of_mem y hz)) hxy (hs.1 z hz)
    · rw [if_neg hxy]
      refine List.Pairwise.cons ?_ (ih (fun z hz => hl z (List.mem_cons_of_mem y hz)) hs.2)
      intro z hz
      rcases mem_insertItem hz with hz | hz
      · subst hz
        rcases itemLe_total hx (hl y (List.mem_cons_self y ys)) with h | h
        · exact absurd h hxy
        · exact h
      · exact hs.1 z hz

lemma sortItems_pairwise :
    ∀ {l : List FileItem}, (∀ y ∈ l, KindOk y) →
      (sortItems l).Pairwise (fun a b => itemLe a b = true) := by
  intro l
  induction l with
  | nil => intro _; simp [sortItems]
  | cons x xs ih =>
    intro hl
    exact insertItem_pairwise (hl x (List.mem_cons_self x xs))
      (fun y hy => hl y (List.mem_cons_of_mem x (mem_sortItems hy)))
      (ih fun y hy => hl y (List.mem_cons_of_mem x hy))

lemma filterMap_attach_eq {α β : Type} (l : List α) (f : α → Option β) :
    l.attach.filterMap (fun x => f x.1) = l.filterMap f := by
  conv_rhs => rw [← List.attach_map_subtype_val l]
  rw [List.filterMap_map]
  rfl

lemma filterMap_congr_mem {α β : Type} {f g : α → Option β} :
    ∀ {l : List α}, (∀ a ∈ l, f a = g a) → l.filterMap f = l.filterMap g := by
  intro l
  induction l with
  | nil => intro _; rfl
  | cons x xs ih =>
    intro h
    simp only [List.filterMap_cons, h x (List.mem_cons_self x xs),
      ih fun a ha => h a (List.mem_cons_of_mem x ha)]

/-- The scan of a directory is the folders-first sort of the per-entry
results over the name-sorted entry list. -/
lemma scanDir_eq (mtime : String → Option String) (pfx : String) (entries : List FsNode) :
    scanDir mtime pfx entries =
      sortItems ((sortByName entries).filterMap (scanEntry mtime pfx)) := by
  rw [scanDir]
  congr 1
  rw [← filterMap_attach_eq (sortByName entries) (scanEntry mtime pfx)]
  apply filterMap_congr_mem
  rintro ⟨e, he⟩ _
  cases e <;> rfl

lemma scanEntry_kindOk {mtime : String → Option String} {pfx : String} {e : FsNode}
    {it : FileItem} (h : scanEntry mtime pfx e = some it) : KindOk it := by
  cases e with
  | file name =>
    simp only [scanEntry] at h
    split_ifs at h
    rw [Option.some.injEq] at h
    subst h
    exact Or.inr rfl
  | dir name sub =>
    simp only [scanEntry] at h
    split_ifs at h
    rw [Option.some.injEq] at h
    subst h
    exact Or.inl rfl

lemma scanEntry_nodot {mtime : String → Option String} {pfx : String} {e : FsNode}
    {it : FileItem} (h : scanEntry mtime pfx e = some it) :
    strStartsWith it.name "." = false := by
  cases e with
  | file name =>
    simp only [scanEntry] at h
    split_ifs at h with h1 h2
    rw [Option.some.injEq] at h
    subst h
    simpa [FileItem.name] using h1
  | dir name sub =>
    simp only [scanEntry] at h
    split_ifs at h with h1 h2
    rw [Option.some.injEq] at h
    subst h
    simpa [FileItem.name] using h1

lemma hasMd_file_mem : ∀ {entries : List FsNode} {name : String},
    FsNode.file name ∈ entries → isMdName name = true → hasMdFiles entries = true := by
  intro entries
  induction entries with
  | nil => intro name h; simp at h
  | cons e rest ih =>
    intro name h hmd
    cases e with
    | file n =>
      rcases List.mem_cons.mp h with h | h
      · cases h
        simp [hasMdFiles, hmd]
      · simp [hasMdFiles, ih h hmd]
    | dir n sub =>
      rcases List.mem_cons.mp h with h | h
      · exact absurd h (by simp)
      · simp [hasMdFiles, ih h hmd]

lemma hasMd_dir_mem : ∀ {entries : List FsNode} {name : String} {sub : List FsNode},
    FsNode.dir name sub ∈ entries → hasMdFiles sub = true → hasMdFiles entries = true := by
  intro entries
  induction entries with
  | nil => intro name sub h; simp at h
  | cons e rest ih =>
    intro name sub h hmd
    cases e with
    | file n =>
      rcases List.mem_cons.mp h with h | h
      · exact absurd h (by simp)
      · simp [hasMdFiles, ih h hmd]
    | dir n s =>
      rcases List.mem_cons.mp h with h | h
      · cases h
        simp [hasMdFiles, hmd]
      · simp [hasMdFiles, ih h hmd]

/-- A nonempty scan means a Markdown file somewhere below: every emitted
item traces back to a direct `.md` file or to a qualifying subdirectory. -/
lemma scanDir_hasMd (mtime : String → Option String) :
    ∀ (entries : List FsNode) (pfx : String),
      scanDir mtime pfx entries ≠ [] → hasMdFiles entries = true := by
  suffices H : ∀ (n : Nat) (entries : List FsNode), sizeOf entries < n →
      ∀ pfx, scanDir mtime pfx entries ≠ [] → hasMdFiles entries = true by
    exact fun entries pfx h => H (sizeOf entries + 1) entries (by omega) pfx h
  intro n
  induction n with
  | zero => intro entries h; omega
  | succ n ih =>
    intro entries hsz pfx hne
    obtain ⟨it, hit⟩ := List.exists_mem_of_ne_nil _ hne
    rw [scanDir_eq] at hit
    obtain ⟨e, he, hfe⟩ := List.mem_filterMap.mp (mem_sortItems hit)
    have he2 : e ∈ entries := mem_sortByName he
    cases e with
    | file name =>
      simp only [scanEntry] at hfe
      split_ifs at hfe with h1 h2
      exact hasMd_file_mem he2 h2
    | dir name sub =>
      simp only [scanEntry] at hfe
      split_ifs at hfe with h1 h2
      have hsub : hasMdFiles sub = true := by
        rcases (Bool.or_eq_true _ _).mp h2 with h | h
        · have hne' : scanDir mtime (childPath pfx name) sub ≠ [] := by
            intro hnil
            rw [hnil] at h
            simp at h
          have hlt : sizeOf sub < n := by
            have hmem := List.sizeOf_lt_of_mem he2
            have hspec : sizeOf (FsNode.dir name sub) = 1 + sizeOf name + sizeOf sub := by
              simp
            omega
          exact ih sub hlt _ hne'
        · exact h
      exact hasMd_dir_mem he2 hsub

/-- C7: every sibling list the scanner emits — `scanDir` applied to any
directory of the tree, the nested children lists being its recursive
instances — is sorted folders-first then by name, contains no entry whose
name starts with `.`, and contains a folder item only for a directory whose
subtree transitively holds at least one Markdown file. -/
theorem scanner_tree_wellformed (mtime : String → Option String) (pfx : String)
    (entries : List FsNode) :
    (scanDir mtime pfx entries).Pairwise (fun a b => itemLe a b = true) ∧
    (∀ it ∈ scanDir mtime pfx entries, strStartsWith it.name "." = false) ∧
    (∀ it ∈ scanDir mtime pfx entries, it.fileType = "folder" →
      ∃ sub, FsNode.dir it.name sub ∈ entries ∧ hasMdFiles sub = true) := by
  refine ⟨?_, ?_, ?_⟩
  · rw [scanDir_eq]
    apply sortItems_pairwise
    intro y hy
    obtain ⟨e, _, hfe⟩ := List.mem_filterMap.mp hy
    exact scanEntry_kindOk hfe
  · intro it hit
    rw [scanDir_eq] at hit
    obtain ⟨e, _, hfe⟩ := List.mem_filterMap.mp (mem_sortItems hit)
    exact scanEntry_nodot hfe
  · intro it hit hft
    rw [scanDir_eq] at hit
    obtain ⟨e, he, hfe⟩ := List.mem_filterMap.mp (mem_sortItems hit)
    cases e with
    | file name =>
      exfalso
      simp only [scanEntry] at hfe
      split_ifs at hfe
      rw [Option.some.injEq] at hfe
      rw [← hfe] at hft
      simp [FileItem.fileType] at hft
    | dir name sub =>
      simp only [scanEntry] at hfe
      split_ifs at hfe with h1 h2
      rw [Option.some.injEq] at hfe
      have hsub : hasMdFiles sub = true := by
        rcases (Bool.or_eq_true _ _).mp h2 with h | h
        · refine scanDir_hasMd mtime sub (childPath pfx name) ?_
          intro hnil
          rw [hnil] at h
          simp at h
        · exact h
      refine ⟨sub, ?_, hsub⟩
      rw [← hfe]
      simpa [FileItem.name] using mem_sortByName he

/-- C3 (counterexample): a GET request with no Authorization header does not
succeed — both `api_list_files` and `api_get_file` call `check_auth` and
answer 401, contradicting the claim that GETs succeed without auth. -/
theorem vault_get_requires_auth_counterexample :
    api_list_files ⟨⟨true, [PComp.normal "vault"]⟩, "tok"⟩ [] none = .error 401 ∧
    api_get_file ⟨⟨true, [PComp.normal "vault"]⟩, "tok"⟩ vfsEmpty none "a.md" = .error 401 := by
  exact ⟨rfl, rfl⟩

/-- C3 (amended): every operation of the vault service — the two GETs
included — requires an Authorization header exactly matching
`Bearer <server_token>`; when it is absent or mismatched all five handlers
answer 401 and the filesystem is untouched. -/
theorem vault_auth_gate (st : ServerState) (scanResult : List FileItem) (fs : Vfs)
    (auth : Option String) (path content oldPath newPath : String)
    (hbad : authOk st.token auth = false) :
    api_list_files st scanResult auth = .error 401 ∧
    api_get_file st fs auth path = .error 401 ∧
    api_put_file st fs auth path content = (.error 401, fs) ∧
    api_delete_file st fs auth path = (.error 401, fs) ∧
    api_rename st fs auth oldPath newPath = (.error 401, fs) := by
  have hc : check_auth st.token auth = .error 401 := by
    rw [check_auth_eq, hbad]
    rfl
  refine ⟨?_, ?_, ?_, ?_, ?_⟩ <;>
    simp [api_list_files, api_get_file, api_put_file, api_delete_file, api_rename, hc]

/-- Witness for `vault_auth_gate` at a concrete state: a PUT carrying a wrong
bearer token is rejected with 401 and writes nothing. -/
theorem vault_auth_gate_witness :
    authOk "tok" (some "Bearer wrong") = false ∧
    api_put_file ⟨⟨true, [PComp.normal "vault"]⟩, "tok"⟩ vfsEmpty (some "Bearer wrong")
      "a.md" "x" = (.error 401, vfsEmpty) :=
  ⟨by decide, (vault_auth_gate ⟨⟨true, [PComp.normal "vault"]⟩, "tok"⟩ [] vfsEmpty
    (some "Bearer wrong") "a.md" "x" "o" "n" (by decide)).2.2.2.1⟩

lemma digit36_mem (k : Nat) (hk : k < 36) : digits36.getD k '0' ∈ digits36 := by
  have hlen : k < digits36.length := by simpa [digits36] using hk
  rw [List.getD_eq_getElem _ _ hlen]
  exact List.getElem_mem hlen

lemma base36Rev_mem {val : Nat} {c : Char} (hc : c ∈ base36Rev val) : c ∈ digits36 := by
  induction val using Nat.strong_induction_on with
  | _ val ih =>
    rw [base36Rev] at hc
    split at hc
    · simp at hc
    · rcases List.mem_cons.mp hc with h | h
      · subst h
        exact digit36_mem _ (Nat.mod_lt _ (by norm_num))
      · next hv =>
        exact ih (val / 36) (Nat.div_lt_self (Nat.pos_of_ne_zero hv) (by norm_num)) h

lemma base36Rev_ne_nil {val : Nat} (h : val ≠ 0) : base36Rev val ≠ [] := by
  rw [base36Rev]
  simp [h]

lemma hashStep_eq (h : Int) (c : Char) : hashStep h c = wrap32 (h * 31 + (c.toNat : Int)) := by
  unfold hashStep wadd wsub wshl5 wrap32
  omega

lemma foldl_hashStep (l : List Char) (init : Int) :
    l.foldl hashStep init = l.foldl (fun h c => wrap32 (h * 31 + (c.toNat : Int))) init := by
  induction l generalizing init with
  | nil => rfl
  | cons a l ih => simp only [List.foldl_cons, hashStep_eq]; exact ih _

/-- C4: `simple_hash` is exactly the spec's fingerprint — the fold
`h ← h·31 + c` over the Unicode scalar values in wrapping signed 32-bit
arithmetic starting from 0, rendered in base-36 with a `-` prefix for
negative values and `"0"` for zero — and its output is always in base-36
format.  Determinism is immediate: the function is pure, so two calls on the
same string return the same output. -/
theorem simple_hash_eq_fingerprintSpec (s : String) :
    simple_hash s = fingerprintSpec s ∧ Base36Format (simple_hash s).data := by
  have hmain : simple_hash s = fingerprintSpec s := by
    unfold simple_hash fingerprintSpec to_base36
    rw [foldl_hashStep]
    set h := s.data.foldl (fun h c => wrap32 (h * 31 + (c.toNat : Int))) 0 with hh
    by_cases h0 : h = 0
    · simp [h0]
    · by_cases hneg : h < 0
      · simp [h0, hneg]
      · simp [h0, hneg]
  refine ⟨hmain, ?_⟩
  unfold simple_hash to_base36
  set h := s.data.foldl hashStep 0 with hh
  by_cases h0 : h = 0
  · left
    simp [h0]
  · right
    refine ⟨(base36Rev h.natAbs).reverse, ?_, ?_, ?_⟩
    · simp [base36Rev_ne_nil (Int.natAbs_ne_zero.mpr h0)]
    · intro c hc
      exact base36Rev_mem (List.mem_reverse.mp hc)
    · by_cases hneg : h < 0
      · right
        simp [h0, hneg]
      · left
        simp [h0, hneg]
